import Mathlib

/-!
Formal model of the `InsertRestoreOpPass` MLIR rewrite pass from
`tensorflow/compiler/mlir/quantization/tensorflow/passes/insert_restore_op.cc`.

The IR is embedded shallowly: a module is a list of functions, a function
body is the ordered list of its top-level operations (single block, the
last operation being the terminator), and an operation carries a unique
numeric identity (standing for its node address), a kind, its operand
values and the operations nested in its regions.  Values are either block
arguments or results of operations, referenced by the defining operation
identity and a result index.
-/

/-- Tensor types, as far as the pass inspects them: the scalar string type
used for the checkpoint path argument, the rank-1 string tensor types the
pass builds for the two constants, and opaque resource subtypes. -/
inductive TType where
  | stringScalar : TType
  | stringTensor1D : Nat → TType
  | sub : Nat → TType
  deriving DecidableEq

/-- Literal payloads of `tf.Const` operations.  The pass only ever builds
1-D string constants; other literals are opaque. -/
inductive Lit where
  | strs : List String → Lit
  | raw : Nat → Lit
  deriving DecidableEq

/-- An SSA value: a block argument of the enclosing function, or result
number `j` of the operation with identity `i`. -/
inductive Value where
  | arg : Nat → Value
  | res : Nat → Nat → Value
  deriving DecidableEq

/-- Operation kinds relevant to the pass.  `varHandle` carries the shared
name and the resource subtype, `constant` its literal, `restoreV2` its
declared result types, `retOp` is the function terminator and `otherOp`
stands for any unrelated operation (tag, number of results). -/
inductive OpKind where
  | varHandle : String → TType → OpKind
  | constant : Lit → OpKind
  | assignVariable : OpKind
  | restoreV2 : List TType → OpKind
  | retOp : OpKind
  | otherOp : Nat → Nat → OpKind
  deriving DecidableEq

/-- An operation: identity, kind, operand values, and the operations of
its nested regions (empty for every kind the pass touches). -/
inductive Operation where
  | mk : Nat → OpKind → List Value → List Operation → Operation

def Operation.oid : Operation → Nat
  | .mk i _ _ _ => i

def Operation.kind : Operation → OpKind
  | .mk _ k _ _ => k

def Operation.operands : Operation → List Value
  | .mk _ _ os _ => os

def Operation.nested : Operation → List Operation
  | .mk _ _ _ ns => ns

/-- Number of results an operation produces, per the TensorFlow op
definitions (`VarHandleOp` and `ConstOp` have one result,
`AssignVariableOp` and the terminator none, `RestoreV2` one per declared
tensor type). -/
def numResults (o : Operation) : Nat :=
  match o.kind with
  | .varHandle _ _ => 1
  | .constant _ => 1
  | .assignVariable => 0
  | .restoreV2 ts => ts.length
  | .retOp => 0
  | .otherOp _ n => n

def isAssignVar (o : Operation) : Bool :=
  match o.kind with
  | .assignVariable => true
  | _ => false

def isConstOp (o : Operation) : Bool :=
  match o.kind with
  | .constant _ => true
  | _ => false

def isVarHandle (o : Operation) : Bool :=
  match o.kind with
  | .varHandle _ _ => true
  | _ => false

def isRestore (o : Operation) : Bool :=
  match o.kind with
  | .restoreV2 _ => true
  | _ => false

/-- Does a value reference some result of the operation with identity `i`? -/
def valueRefs (i : Nat) : Value → Bool
  | .arg _ => false
  | .res j _ => j == i

mutual

/-- Does operation `o` use some result of the operation with identity `i`,
either as a direct operand or anywhere inside its nested regions?  This is
the shallow counterpart of walking the use list of that operation. -/
def Operation.usesId : Operation → Nat → Bool
  | .mk _ _ ops ns, i => ops.any (valueRefs i) || opsUseId ns i

def opsUseId : List Operation → Nat → Bool
  | [], _ => false
  | o :: rest, i => o.usesId i || opsUseId rest i

end

mutual

/-- Largest operation identity occurring in an operation (including its
nested regions). -/
def Operation.maxIdOf : Operation → Nat
  | .mk i _ _ ns => max i (opsMaxId ns)

/-- Largest operation identity occurring in a list of operations. -/
def opsMaxId : List Operation → Nat
  | [] => 0
  | o :: rest => max o.maxIdOf (opsMaxId rest)

end

/-- Look an operation up by identity among the top-level operations of a
body. -/
def findOpById (b : List Operation) (i : Nat) : Option Operation :=
  b.find? (fun o => o.oid == i)

/-- Model of `Value::getDefiningOp`: the defining operation of a value, `none` for
a block argument. -/
def definingOp (b : List Operation) : Value → Option Operation
  | .arg _ => none
  | .res i _ => findOpById b i

/-- Model of `Operation::erase` on a top-level operation, by identity. -/
def eraseOpId (i : Nat) (b : List Operation) : List Operation :=
  b.filter (fun o => o.oid != i)

/-- The mutation a qualifying pattern causes inside the scan loop
(`insert_restore_op.cc` lines 93-97): erase the `AssignVariableOp`, then
erase the `ConstOp` exactly when it has no remaining uses. -/
def stepBody (b : List Operation) (a c : Operation) : List Operation :=
  let b1 := eraseOpId a.oid b
  if opsUseId b1 c.oid then b1 else eraseOpId c.oid b1

/-- One iteration of the scan loop of `RemoveAssignVariableOpsAndConstOps`
(`insert_restore_op.cc` lines 79-98) on the assign operation `a`, given
the current body `b` and the handles collected so far.  `none` models the
failed `dyn_cast` assertion that fires when a scanned operand has no
defining operation (that is, when it is a block argument), since the code
uses `dyn_cast`, not `dyn_cast_or_null`. -/
def stripStep (b : List Operation) (acc : List Operation) (a : Operation) :
    Option (List Operation × List Operation) :=
  match a.operands[0]? with
  | none => none
  | some r =>
    match definingOp b r with
    | none => none
    | some d =>
      if isVarHandle d then
        match a.operands[1]? with
        | none => none
        | some v =>
          match definingOp b v with
          | none => none
          | some c =>
            if isConstOp c then
              some (stepBody b a c, acc ++ [d])
            else
              some (b, acc)
      else
        some (b, acc)

/-- The scan loop folded over the snapshot list `l` of assign operations
(the early-incremented filtered range of the source). -/
def stripGo : List Operation → List Operation → List Operation →
    Option (List Operation × List Operation)
  | [], b, acc => some (b, acc)
  | a :: rest, b, acc =>
    match stripStep b acc a with
    | none => none
    | some (b1, acc1) => stripGo rest b1 acc1

/-- Model of `RemoveAssignVariableOpsAndConstOps`: scan the `AssignVariableOp`s of
the body in order, erase the qualifying patterns and return the mutated
body together with the collected `VarHandleOp`s. -/
def removeAssignVariableOpsAndConstOps (b : List Operation) :
    Option (List Operation × List Operation) :=
  stripGo (b.filter isAssignVar) b []

/-- Model of `Create1DStringConst`: a `tf.Const` with a rank-1 string tensor. -/
def create1DStringConst (i : Nat) (vals : List String) : Operation :=
  .mk i (.constant (.strs vals)) [] []

/-- The tensor type of a literal, as built by `Create1DStringConst`. -/
def litType : Lit → TType
  | .strs vs => .stringTensor1D vs.length
  | .raw n => .sub n

/-- An argument of a function: its type and the value of its
`tf_saved_model.index_path` attribute, when present. -/
structure ArgSpec where
  ty : TType
  indexPath : Option (List String)
  deriving DecidableEq

/-- The argument `InsertFilePrefixArgument` appends: a scalar string
tensor whose index path is `["file_prefix"]`. -/
def filePfxArg : ArgSpec :=
  { ty := TType.stringScalar, indexPath := some ["file_prefix"] }

/-- A function: symbol name, the `tf_saved_model.initializer_type`
attribute when present, its arguments and its body. -/
structure FuncOp where
  name : String
  initType : Option String
  args : List ArgSpec
  body : List Operation

/-- A module: the list of its functions. -/
structure ModuleOp where
  funcs : List FuncOp

def sharedNameOf (o : Operation) : String :=
  match o.kind with
  | .varHandle s _ => s
  | _ => ""

def subtypeOf (o : Operation) : TType :=
  match o.kind with
  | .varHandle _ t => t
  | _ => .sub 0

/-- Model of `OpBuilder::atBlockTerminator` followed by a sequence of `create`
calls: splice the new operations in just before the last operation of the
body. -/
def insertBeforeTerm (newOps b : List Operation) : List Operation :=
  b.take (b.length - 1) ++ newOps ++ b.drop (b.length - 1)

/-- The `AssignVariableOp`s created in the `llvm::enumerate` loop of
`CreateRestoreV2Op`: the i-th one assigns result `i` of the restore
operation (identity `base + 2`) to the i-th collected handle. -/
def newAssignOps (base : Nat) (handles : List Operation) : List Operation :=
  handles.enum.map fun p =>
    Operation.mk (base + 3 + p.1) .assignVariable
      [Value.res p.2.oid 0, Value.res (base + 2) p.1] []

/-- Model of `CreateRestoreV2Op` together with `InsertFilePrefixArgument`: append
the file-prefix argument, build the tensor-names constant (identity
`base`), the shape-and-slices constant (identity `base + 1`, one empty
string per tensor name), the `RestoreV2` operation (identity `base + 2`)
and one new assign per handle, all inserted before the terminator. -/
def createRestoreV2Op (base : Nat) (handles : List Operation) (f : FuncOp) :
    FuncOp :=
  let tensorNames := handles.map sharedNameOf
  let tensorTypes := handles.map subtypeOf
  let argIdx := f.args.length
  let namesConst := create1DStringConst base tensorNames
  let slicesConst :=
    create1DStringConst (base + 1) (List.replicate tensorNames.length "")
  let restoreOp := Operation.mk (base + 2) (.restoreV2 tensorTypes)
      [Value.arg argIdx, Value.res base 0, Value.res (base + 1) 0] []
  { f with
    args := f.args ++ [filePfxArg],
    body := insertBeforeTerm
      ([namesConst, slicesConst, restoreOp] ++ newAssignOps base handles)
      f.body }

/-- The `RestoreV2` operation `CreateRestoreV2Op` builds: result types are
the resource subtypes of the handles, operands are the new file-prefix
argument and the two constants. -/
def theRestoreOp (base argIdx : Nat) (hs : List Operation) : Operation :=
  Operation.mk (base + 2) (.restoreV2 (hs.map subtypeOf))
    [Value.arg argIdx, Value.res base 0, Value.res (base + 1) 0] []

/-- All operations `CreateRestoreV2Op` creates, in creation order: the
tensor-names constant, the shape-and-slices constant, the restore
operation and the new assigns. -/
def synthOps (base argIdx : Nat) (hs : List Operation) : List Operation :=
  create1DStringConst base (hs.map sharedNameOf) ::
  create1DStringConst (base + 1)
    (List.replicate (hs.map sharedNameOf).length "") ::
  theRestoreOp base argIdx hs :: newAssignOps base hs

/-- Modelled from the spec: `GetInitializerFunction` (declared in
`tf_saved_model.h`, its definition is not part of this repository slice)
returns the single initializer function whose
`tf_saved_model.initializer_type` attribute equals the requested type;
the spec describes it as a lookup returning the canonical match.  We
model it as the index of the first function tagged `"restore_op"`. -/
def findRestoreInit : List FuncOp → Option Nat
  | [] => none
  | f :: rest =>
    if f.initType = some "restore_op" then some 0
    else (findRestoreInit rest).map (· + 1)

/-- Largest operation identity in the module; fresh operations created by
the pass get identities above it. -/
def moduleMaxId (m : ModuleOp) : Nat :=
  m.funcs.foldr (fun f acc => max (opsMaxId f.body) acc) 0

def freshBase (m : ModuleOp) : Nat := moduleMaxId m + 1

/-- Model of `InsertRestoreOpPass::runOnOperation` (`insert_restore_op.cc` lines
191-211): locate the `restore_op` initializer (no-op when absent), strip
the assign/const patterns (module already reflects the erasures when the
collected list is empty), and otherwise synthesize the restore machinery.
`none` models the scan crashing on a `dyn_cast` of a null defining
operation. -/
def runPass (m : ModuleOp) : Option ModuleOp :=
  match findRestoreInit m.funcs with
  | none => some m
  | some k =>
    match m.funcs[k]? with
    | none => some m
    | some f =>
      match removeAssignVariableOpsAndConstOps f.body with
      | none => none
      | some (b2, handles) =>
        if handles.isEmpty then
          some ⟨m.funcs.set k { f with body := b2 }⟩
        else
          some ⟨m.funcs.set k
            (createRestoreV2Op (freshBase m) handles { f with body := b2 })⟩

/-- Defining operation of operand 0 of `a`, looked up in `b`. -/
def def0 (b : List Operation) (a : Operation) : Option Operation :=
  (a.operands[0]?).bind (definingOp b)

/-- Defining operation of operand 1 of `a`, looked up in `b`. -/
def def1 (b : List Operation) (a : Operation) : Option Operation :=
  (a.operands[1]?).bind (definingOp b)

/-- Specification-side predicate: does `a` match the
`AssignVariable(VarHandle, Const)` pattern in body `b`?  (operand 0
defined by a `VarHandleOp`, operand 1 defined by a `ConstOp`). -/
def qualifies (b : List Operation) (a : Operation) : Bool :=
  ((def0 b a).map isVarHandle).getD false &&
    ((def1 b a).map isConstOp).getD false

/-- The handle a qualifying pattern contributes (none when the pattern
does not qualify). -/
def patternHandleIfQual (b : List Operation) (a : Operation) :
    Option Operation :=
  if qualifies b a then def0 b a else none

/-- Specification-side characterization of the collector: one handle per
qualifying assign of `l`, in encounter order, without deduplication. -/
def collected (b : List Operation) : List Operation → List Operation
  | [] => []
  | a :: rest =>
    match patternHandleIfQual b a with
    | some d => d :: collected b rest
    | none => collected b rest

/-- Shape facts the scan guarantees about each visited assign when it does
not crash: operand 0 has a defining operation, and when that operation is
a `VarHandleOp`, operand 1 has a defining operation as well. -/
def scanShape (b : List Operation) (a : Operation) : Prop :=
  ∃ d, def0 b a = some d ∧
    (isVarHandle d = true → ∃ c, def1 b a = some c)

/-- Per-operation well-formedness mirroring the TensorFlow op
definitions: constants and variable handles have no operands and no
regions, assigns have exactly two operands and no regions. -/
def wfOp (o : Operation) : Bool :=
  match o.kind with
  | .constant _ => o.operands.isEmpty && o.nested.isEmpty
  | .varHandle _ _ => o.operands.isEmpty && o.nested.isEmpty
  | .assignVariable => o.operands.length == 2 && o.nested.isEmpty
  | _ => true

/-- A result-operand is well formed when its defining operation exists at
top level and the result index is in range. -/
def refOk (b : List Operation) : Value → Bool
  | .arg _ => true
  | .res i j =>
    match findOpById b i with
    | none => false
    | some d => decide (j < numResults d)

/-- Well-formed body: distinct operation identities, well-formed
operations, and every result-operand of a top-level operation resolvable
at top level. -/
def wfBody (b : List Operation) : Prop :=
  (b.map Operation.oid).Nodup ∧
    (∀ o ∈ b, wfOp o = true) ∧
    ∀ o ∈ b, ∀ v ∈ o.operands, refOk b v = true

/-- The body is terminated: nonempty, with the terminator last. -/
def endsWithTerm (b : List Operation) : Bool :=
  match b.getLast? with
  | some t => decide (t.kind = OpKind.retOp)
  | none => false

/-- Count the operations of a body satisfying `p`. -/
def countOps (p : Operation → Bool) (b : List Operation) : Nat :=
  (b.filter p).length

/-! ### Concrete bodies and modules used by witnesses and counterexamples -/

def vhOp (i : Nat) (s : String) (t : Nat) : Operation :=
  .mk i (.varHandle s (.sub t)) [] []

def litConstOp (i n : Nat) : Operation :=
  .mk i (.constant (.raw n)) [] []

def assignOp (i : Nat) (r v : Value) : Operation :=
  .mk i .assignVariable [r, v] []

def termOp (i : Nat) : Operation :=
  .mk i .retOp [] []

/-- Initializer body with two qualifying patterns: handle `w1` assigned
constant 2, handle `w2` assigned constant 4. -/
def bW : List Operation :=
  [vhOp 1 "w1" 1, litConstOp 2 10, vhOp 3 "w2" 2, litConstOp 4 20,
   assignOp 5 (.res 1 0) (.res 2 0), assignOp 6 (.res 3 0) (.res 4 0),
   termOp 7]

def fW : FuncOp := ⟨"init", some "restore_op", [], bW⟩

def mW : ModuleOp := ⟨[fW]⟩

/-- The module the pass produces from `mW`. -/
def mWout : ModuleOp :=
  ⟨[⟨"init", some "restore_op", [filePfxArg],
    [vhOp 1 "w1" 1, vhOp 3 "w2" 2,
     create1DStringConst 8 ["w1", "w2"],
     create1DStringConst 9 ["", ""],
     Operation.mk 10 (.restoreV2 [.sub 1, .sub 2])
       [.arg 0, .res 8 0, .res 9 0] [],
     assignOp 11 (.res 1 0) (.res 10 0),
     assignOp 12 (.res 3 0) (.res 10 1),
     termOp 7]⟩]⟩

/-- One qualifying pattern followed by an assign whose resource operand is
a block argument: the scan crashes on the latter. -/
def bCrash1 : List Operation :=
  [vhOp 1 "v" 1, litConstOp 2 5,
   assignOp 3 (.res 1 0) (.res 2 0), assignOp 4 (.arg 0) (.res 2 0),
   termOp 5]

def mCrash1 : ModuleOp :=
  ⟨[⟨"init", some "restore_op", [⟨.sub 9, none⟩], bCrash1⟩]⟩

/-- Zero qualifying patterns, but an assign whose operands are block
arguments: the scan crashes without having mutated anything. -/
def bCrash3 : List Operation := [assignOp 1 (.arg 0) (.arg 1), termOp 2]

def mCrash3 : ModuleOp :=
  ⟨[⟨"init", some "restore_op", [⟨.sub 1, none⟩, ⟨.sub 2, none⟩],
    bCrash3⟩]⟩

/-- Body whose only assign reads its resource from a block argument. -/
def bCrash4 : List Operation := [assignOp 1 (.arg 0) (.arg 1), termOp 2]

/-- Body whose only assign has a `VarHandleOp` resource but a value
defined by another `VarHandleOp` (not a constant): it is skipped. -/
def bSkip4 : List Operation :=
  [vhOp 1 "x" 1, vhOp 2 "y" 2, assignOp 3 (.res 1 0) (.res 2 0), termOp 4]

/-- One constant feeding two assigns to two different handles. -/
def bShared : List Operation :=
  [vhOp 1 "a" 1, vhOp 2 "b" 2, litConstOp 3 9,
   assignOp 4 (.res 1 0) (.res 3 0), assignOp 5 (.res 2 0) (.res 3 0),
   termOp 6]

/-- The same handle assigned twice from two different constants. -/
def bDup : List Operation :=
  [vhOp 1 "w" 1, litConstOp 2 3, litConstOp 3 4,
   assignOp 4 (.res 1 0) (.res 2 0), assignOp 5 (.res 1 0) (.res 3 0),
   termOp 6]

/-- Initializer whose only assign pattern sits inside the nested region of
another operation; the top level has no assign at all. -/
def bNest : List Operation :=
  [vhOp 2 "n" 1, litConstOp 3 7,
   Operation.mk 4 (.otherOp 0 0) [] [assignOp 5 (.res 2 0) (.res 3 0)],
   termOp 6]

def mNest : ModuleOp :=
  ⟨[⟨"other", none, [], [termOp 1]⟩,
    ⟨"init", some "restore_op", [], bNest⟩]⟩

/-- A module with no `restore_op`-typed initializer. -/
def mNoInit : ModuleOp := ⟨[⟨"main", none, [], [termOp 1]⟩]⟩

/-- Everything the scan loop guarantees, relating the snapshot `l`, the
body `b` and accumulator `acc` at entry to the body `b2` and accumulator
`acc2` at exit. -/
structure ScanFacts (l b acc b2 acc2 : List Operation) : Prop where
  filt : ∃ p, b2 = b.filter p
  coll : acc2 = acc ++ collected b l
  qerased : ∀ a ∈ l, qualifies b a = true → a.oid ∉ b2.map Operation.oid
  skept : ∀ a ∈ l, qualifies b a = false → a ∈ b2
  onlyAC : ∀ o ∈ b, o ∉ b2 → o ∈ l ∨ isConstOp o = true
  constUsedKept : ∀ o ∈ b, isConstOp o = true →
    opsUseId b2 o.oid = true → o ∈ b2
  constKeptUsed : ∀ a ∈ l, qualifies b a = true → ∀ c, def1 b a = some c →
    c ∈ b2 → opsUseId b2 c.oid = true
  shapes : ∀ a ∈ l, scanShape b a

/-! ### Basic facts about kinds, lookup, erasure and uses -/

theorem isConstOp_false_of_isAssignVar {o : Operation}
    (h : isAssignVar o = true) : isConstOp o = false := by
  cases o with
  | mk i k os ns => cases k <;> simp_all [Operation.kind, isAssignVar, isConstOp]

theorem isAssignVar_false_of_isVarHandle {o : Operation}
    (h : isVarHandle o = true) : isAssignVar o = false := by
  cases o with
  | mk i k os ns => cases k <;> simp_all [Operation.kind, isAssignVar, isVarHandle]

theorem isConstOp_false_of_isVarHandle {o : Operation}
    (h : isVarHandle o = true) : isConstOp o = false := by
  cases o with
  | mk i k os ns => cases k <;> simp_all [Operation.kind, isConstOp, isVarHandle]

theorem isAssignVar_false_of_isRestore {o : Operation}
    (h : isRestore o = true) : isAssignVar o = false := by
  cases o with
  | mk i k os ns => cases k <;> simp_all [Operation.kind, isAssignVar, isRestore]

theorem numResults_eq_zero_of_isAssignVar {o : Operation}
    (h : isAssignVar o = true) : numResults o = 0 := by
  cases o with
  | mk i k os ns => cases k <;> simp_all [Operation.kind, isAssignVar, numResults]

theorem oid_inj {b : List Operation} (hnd : (b.map Operation.oid).Nodup)
    {o1 o2 : Operation} (h1 : o1 ∈ b) (h2 : o2 ∈ b)
    (he : o1.oid = o2.oid) : o1 = o2 := by
  induction b with
  | nil => cases h1
  | cons x t ih =>
    have hx : x.oid ∉ t.map Operation.oid :=
      (List.nodup_cons.1 (by simpa using hnd)).1
    have hnd' : (t.map Operation.oid).Nodup :=
      (List.nodup_cons.1 (by simpa using hnd)).2
    rcases List.mem_cons.1 h1 with rfl | h1t
    · rcases List.mem_cons.1 h2 with rfl | h2t
      · rfl
      · exact absurd (he ▸ List.mem_map_of_mem Operation.oid h2t) hx
    · rcases List.mem_cons.1 h2 with rfl | h2t
      · exact absurd (he ▸ List.mem_map_of_mem Operation.oid h1t) hx
      · exact ih hnd' h1t h2t

theorem findOpById_mem {b : List Operation} {i : Nat} {o : Operation}
    (h : findOpById b i = some o) : o ∈ b ∧ o.oid = i :=
  ⟨List.mem_of_find?_eq_some h, by simpa using List.find?_some h⟩

theorem findOpById_of_mem {b : List Operation}
    (hnd : (b.map Operation.oid).Nodup) {o : Operation} (ho : o ∈ b) :
    findOpById b o.oid = some o := by
  induction b with
  | nil => cases ho
  | cons x t ih =>
    have hx : x.oid ∉ t.map Operation.oid :=
      (List.nodup_cons.1 (by simpa using hnd)).1
    have hnd' : (t.map Operation.oid).Nodup :=
      (List.nodup_cons.1 (by simpa using hnd)).2
    rcases List.mem_cons.1 ho with rfl | hot
    · simp [findOpById]
    · have hne : (x.oid == o.oid) = false := by
        simp only [beq_eq_false_iff_ne, ne_eq]
        intro he
        exact hx (he ▸ List.mem_map_of_mem Operation.oid hot)
      simpa [findOpById, List.find?, hne] using ih hnd' hot

theorem findOpById_eq_none {b : List Operation} {i : Nat} :
    findOpById b i = none ↔ ∀ o ∈ b, o.oid ≠ i := by
  simp [findOpById, List.find?_eq_none]

theorem mem_eraseOpId {i : Nat} {b : List Operation} {o : Operation} :
    o ∈ eraseOpId i b ↔ o ∈ b ∧ o.oid ≠ i := by
  simp [eraseOpId, List.mem_filter]

theorem definingOp_some {b : List Operation} {v : Value} {o : Operation}
    (h : definingOp b v = some o) : (∃ j, v = .res o.oid j) ∧ o ∈ b := by
  cases v with
  | arg n => simp [definingOp] at h
  | res i j =>
    have hm := findOpById_mem h
    exact ⟨⟨j, by rw [hm.2]⟩, hm.1⟩

theorem definingOp_res_of_mem {b : List Operation}
    (hnd : (b.map Operation.oid).Nodup) {o : Operation} (ho : o ∈ b)
    (j : Nat) : definingOp b (.res o.oid j) = some o :=
  findOpById_of_mem hnd ho

theorem definingOp_none_mono {s b : List Operation} (hsub : s ⊆ b)
    {v : Value} (h : definingOp b v = none) : definingOp s v = none := by
  cases v with
  | arg n => rfl
  | res i j =>
    show findOpById s i = none
    rw [findOpById_eq_none]
    intro o hos
    exact (findOpById_eq_none.1 h) o (hsub hos)

theorem usesId_of_operand {o : Operation} {v : Value} (hv : v ∈ o.operands)
    {i j : Nat} (he : v = .res i j) : o.usesId i = true := by
  cases o with
  | mk n k os ns =>
    have hos : v ∈ os := hv
    simp only [Operation.usesId, Bool.or_eq_true]
    left
    exact List.any_eq_true.2 ⟨v, hos, by simp [he, valueRefs]⟩

theorem opsUseId_iff {b : List Operation} {i : Nat} :
    opsUseId b i = true ↔ ∃ o ∈ b, o.usesId i = true := by
  induction b with
  | nil => simp [opsUseId]
  | cons x t ih => simp [opsUseId, Bool.or_eq_true, ih]

theorem oid_le_maxIdOf (o : Operation) : o.oid ≤ o.maxIdOf := by
  cases o with
  | mk i k os ns => simp [Operation.maxIdOf, Operation.oid]

theorem oid_le_opsMaxId {b : List Operation} {o : Operation} (h : o ∈ b) :
    o.oid ≤ opsMaxId b := by
  induction b with
  | nil => cases h
  | cons x t ih =>
    rcases List.mem_cons.1 h with rfl | ht
    · exact le_trans (oid_le_maxIdOf o) (by simp [opsMaxId])
    · exact le_trans (ih ht) (by simp [opsMaxId])

theorem opsMaxId_le_foldr {fs : List FuncOp} {f : FuncOp} (h : f ∈ fs) :
    opsMaxId f.body ≤ fs.foldr (fun g acc => max (opsMaxId g.body) acc) 0 := by
  induction fs with
  | nil => cases h
  | cons x t ih =>
    rcases List.mem_cons.1 h with rfl | ht
    · simp
    · exact le_trans (ih ht) (by simp)

theorem oid_le_moduleMaxId {m : ModuleOp} {f : FuncOp} (hf : f ∈ m.funcs)
    {o : Operation} (ho : o ∈ f.body) : o.oid ≤ moduleMaxId m :=
  le_trans (oid_le_opsMaxId ho) (opsMaxId_le_foldr hf)

theorem set_getElem?_self {α : Type} {l : List α} {k : Nat} {x : α}
    (h : l[k]? = some x) : l.set k x = l := by
  induction l generalizing k with
  | nil => simp at h
  | cons a t ih =>
    cases k with
    | zero =>
      simp only [List.getElem?_cons_zero, Option.some.injEq] at h
      simp [h]
    | succ n =>
      simp only [List.getElem?_cons_succ] at h
      simp [ih h]

theorem findRestoreInit_some {fs : List FuncOp} {k : Nat}
    (h : findRestoreInit fs = some k) :
    ∃ f, fs[k]? = some f ∧ f.initType = some "restore_op" := by
  induction fs generalizing k with
  | nil => simp [findRestoreInit] at h
  | cons g t ih =>
    by_cases hg : g.initType = some "restore_op"
    · simp only [findRestoreInit, if_pos hg, Option.some.injEq] at h
      subst h
      exact ⟨g, by simp, hg⟩
    · simp only [findRestoreInit, if_neg hg] at h
      rcases Option.map_eq_some'.1 h with ⟨k', hk', rfl⟩
      rcases ih hk' with ⟨f, hf, hty⟩
      exact ⟨f, by simpa using hf, hty⟩

theorem findRestoreInit_set {fs : List FuncOp} {k : Nat} {g : FuncOp}
    (h : findRestoreInit fs = some k)
    (hty : g.initType = some "restore_op") :
    findRestoreInit (fs.set k g) = some k := by
  induction fs generalizing k with
  | nil => simp [findRestoreInit] at h
  | cons x t ih =>
    by_cases hx : x.initType = some "restore_op"
    · simp only [findRestoreInit, if_pos hx, Option.some.injEq] at h
      subst h
      simp [findRestoreInit, hty]
    · simp only [findRestoreInit, if_neg hx] at h
      rcases Option.map_eq_some'.1 h with ⟨k', hk', rfl⟩
      show findRestoreInit (x :: t.set k' g) = some (k' + 1)
      simp [findRestoreInit, hx, ih hk']

/-! ### Shapes of a scan step -/

theorem ne_of_pred {p : Operation → Bool} {x y : Operation}
    (hx : p x = true) (hy : p y = false) : x ≠ y := by
  intro he
  rw [he, hy] at hx
  cases hx

theorem def0_some_elim {b : List Operation} {a d : Operation}
    (h : def0 b a = some d) :
    ∃ r, a.operands[0]? = some r ∧ definingOp b r = some d :=
  Option.bind_eq_some.1 h

theorem def1_some_elim {b : List Operation} {a c : Operation}
    (h : def1 b a = some c) :
    ∃ v, a.operands[1]? = some v ∧ definingOp b v = some c :=
  Option.bind_eq_some.1 h

theorem def0_intro {b : List Operation} {a : Operation} {r : Value}
    (h0 : a.operands[0]? = some r) : def0 b a = definingOp b r := by
  simp [def0, h0]

theorem def1_intro {b : List Operation} {a : Operation} {v : Value}
    (h1 : a.operands[1]? = some v) : def1 b a = definingOp b v := by
  simp [def1, h1]

theorem def0_none_mono {s b : List Operation} {a : Operation}
    (hsub : ∀ x ∈ s, x ∈ b) (h : def0 b a = none) : def0 s a = none := by
  cases h0 : a.operands[0]? with
  | none => simp [def0, h0]
  | some r =>
    rw [def0_intro h0] at h ⊢
    exact definingOp_none_mono hsub h

theorem def1_none_mono {s b : List Operation} {a : Operation}
    (hsub : ∀ x ∈ s, x ∈ b) (h : def1 b a = none) : def1 s a = none := by
  cases h1 : a.operands[1]? with
  | none => simp [def1, h1]
  | some v =>
    rw [def1_intro h1] at h ⊢
    exact definingOp_none_mono hsub h

theorem definingOp_transfer_mem {b s : List Operation}
    (hnds : (s.map Operation.oid).Nodup) {v : Value} {x : Operation}
    (h : definingOp b v = some x) (hx : x ∈ s) :
    definingOp s v = some x := by
  rcases (definingOp_some h).1 with ⟨j, rfl⟩
  exact definingOp_res_of_mem hnds hx j

theorem definingOp_transfer_none {b s : List Operation}
    (hnd : (b.map Operation.oid).Nodup) (hsub : ∀ y ∈ s, y ∈ b)
    {v : Value} {x : Operation} (h : definingOp b v = some x)
    (hx : x ∉ s) : definingOp s v = none := by
  rcases (definingOp_some h).1 with ⟨j, rfl⟩
  show findOpById s x.oid = none
  rw [findOpById_eq_none]
  intro o hos he
  exact hx (oid_inj hnd (hsub o hos) (definingOp_some h).2 he ▸ hos)

theorem qualifies_false_of_def0_none {b : List Operation} {a : Operation}
    (h : def0 b a = none) : qualifies b a = false := by
  simp [qualifies, h]

theorem qualifies_false_of_not_vh {b : List Operation} {a d : Operation}
    (h : def0 b a = some d) (hv : isVarHandle d = false) :
    qualifies b a = false := by
  simp [qualifies, h, hv]

theorem qualifies_false_of_def1_none {b : List Operation} {a : Operation}
    (h : def1 b a = none) : qualifies b a = false := by
  simp [qualifies, h]

theorem qualifies_false_of_not_const {b : List Operation} {a c : Operation}
    (h : def1 b a = some c) (hc : isConstOp c = false) :
    qualifies b a = false := by
  simp [qualifies, h, hc]

theorem qualifies_true_intro {b : List Operation} {a d c : Operation}
    (h0 : def0 b a = some d) (hv : isVarHandle d = true)
    (h1 : def1 b a = some c) (hc : isConstOp c = true) :
    qualifies b a = true := by
  simp [qualifies, h0, hv, h1, hc]

theorem qualifies_def0 {b : List Operation} {a : Operation}
    (hq : qualifies b a = true) :
    ∃ d, def0 b a = some d ∧ isVarHandle d = true := by
  rcases Bool.and_eq_true_iff.1 hq with ⟨h0, _⟩
  cases hd : def0 b a with
  | none => rw [hd] at h0; simp at h0
  | some d => exact ⟨d, rfl, by rw [hd] at h0; simpa using h0⟩

theorem qualifies_def1 {b : List Operation} {a : Operation}
    (hq : qualifies b a = true) :
    ∃ c, def1 b a = some c ∧ isConstOp c = true := by
  rcases Bool.and_eq_true_iff.1 hq with ⟨_, h1⟩
  cases hc : def1 b a with
  | none => rw [hc] at h1; simp at h1
  | some c => exact ⟨c, rfl, by rw [hc] at h1; simpa using h1⟩

theorem pHIQ_of_qual {b : List Operation} {a : Operation}
    (hq : qualifies b a = true) :
    patternHandleIfQual b a = def0 b a := by
  simp [patternHandleIfQual, hq]

theorem pHIQ_of_not_qual {b : List Operation} {a : Operation}
    (hq : qualifies b a = false) :
    patternHandleIfQual b a = none := by
  simp [patternHandleIfQual, hq]

/-! ### `stepBody` facts -/

theorem stepBody_eq_pos {b : List Operation} {a c : Operation}
    (h : opsUseId (eraseOpId a.oid b) c.oid = true) :
    stepBody b a c = eraseOpId a.oid b := by
  simp only [stepBody]
  rw [if_pos h]

theorem stepBody_eq_neg {b : List Operation} {a c : Operation}
    (h : opsUseId (eraseOpId a.oid b) c.oid = false) :
    stepBody b a c = eraseOpId c.oid (eraseOpId a.oid b) := by
  simp only [stepBody]
  rw [if_neg (by simp [h])]

theorem stepBody_filter (b : List Operation) (a c : Operation) :
    ∃ p, stepBody b a c = b.filter p := by
  cases h : opsUseId (eraseOpId a.oid b) c.oid
  · rw [stepBody_eq_neg h]
    exact ⟨fun o => (o.oid != c.oid) && (o.oid != a.oid),
      List.filter_filter _ _⟩
  · rw [stepBody_eq_pos h]
    exact ⟨fun o => o.oid != a.oid, rfl⟩

theorem stepBody_sub {b : List Operation} {a c o : Operation}
    (h : o ∈ stepBody b a c) : o ∈ b ∧ o.oid ≠ a.oid := by
  unfold stepBody at h
  by_cases hu : opsUseId (eraseOpId a.oid b) c.oid = true
  · rw [if_pos hu] at h
    exact (mem_eraseOpId.1 h).imp_left id
  · rw [if_neg hu] at h
    have := mem_eraseOpId.1 h
    exact (mem_eraseOpId.1 this.1).imp_left id

theorem mem_stepBody_of {b : List Operation} {a c o : Operation}
    (ho : o ∈ b) (hoa : o.oid ≠ a.oid) (hoc : o.oid ≠ c.oid) :
    o ∈ stepBody b a c := by
  unfold stepBody
  by_cases hu : opsUseId (eraseOpId a.oid b) c.oid = true
  · rw [if_pos hu]
    exact mem_eraseOpId.2 ⟨ho, hoa⟩
  · rw [if_neg hu]
    exact mem_eraseOpId.2 ⟨mem_eraseOpId.2 ⟨ho, hoa⟩, hoc⟩

theorem mem_stepBody_c {b : List Operation} {a c : Operation}
    (hu : opsUseId (eraseOpId a.oid b) c.oid = true)
    (hc : c ∈ b) (hca : c.oid ≠ a.oid) : c ∈ stepBody b a c := by
  unfold stepBody
  rw [if_pos hu]
  exact mem_eraseOpId.2 ⟨hc, hca⟩

theorem not_mem_oid_stepBody {b : List Operation} {a c : Operation} :
    a.oid ∉ (stepBody b a c).map Operation.oid := by
  intro h
  rcases List.mem_map.1 h with ⟨o, ho, he⟩
  exact (stepBody_sub ho).2 he

theorem nodup_oid_sub {b s : List Operation}
    (hnd : (b.map Operation.oid).Nodup) {p : Operation → Bool}
    (h : s = b.filter p) : (s.map Operation.oid).Nodup := by
  subst h
  exact hnd.sublist ((List.filter_sublist b).map Operation.oid)

/-! ### `collected` facts -/

theorem collected_cons_qual {b : List Operation} {a d : Operation}
    {l : List Operation} (hq : qualifies b a = true)
    (hd : def0 b a = some d) :
    collected b (a :: l) = d :: collected b l := by
  simp [collected, pHIQ_of_qual hq, hd]

theorem collected_cons_skip {b : List Operation} {a : Operation}
    {l : List Operation} (hq : qualifies b a = false) :
    collected b (a :: l) = collected b l := by
  simp [collected, pHIQ_of_not_qual hq]

theorem collected_congr {b1 b2 l : List Operation}
    (h : ∀ a ∈ l, patternHandleIfQual b1 a = patternHandleIfQual b2 a) :
    collected b1 l = collected b2 l := by
  induction l with
  | nil => rfl
  | cons x t ih =>
    have hx := h x (List.mem_cons_self x t)
    have ht := ih fun a ha => h a (List.mem_cons_of_mem x ha)
    simp only [collected, hx, ht]

theorem mem_collected_of {b l : List Operation} {a d : Operation}
    (hal : a ∈ l) (hq : qualifies b a = true) (hd : def0 b a = some d) :
    d ∈ collected b l := by
  induction l with
  | nil => cases hal
  | cons x t ih =>
    rcases List.mem_cons.1 hal with rfl | hat
    · rw [collected_cons_qual hq hd]
      exact List.mem_cons_self d _
    · simp only [collected]
      cases patternHandleIfQual b x <;> simp [ih hat]

theorem collected_mem {b l : List Operation} {d : Operation}
    (h : d ∈ collected b l) : isVarHandle d = true ∧ d ∈ b := by
  induction l with
  | nil => cases h
  | cons x t ih =>
    by_cases hq : qualifies b x = true
    · rcases qualifies_def0 hq with ⟨d0, hd0, hv0⟩
      rw [collected_cons_qual hq hd0] at h
      rcases List.mem_cons.1 h with rfl | hmem
      · exact ⟨hv0, (definingOp_some (def0_some_elim hd0).choose_spec.2).2⟩
      · exact ih hmem
    · rw [collected_cons_skip (Bool.not_eq_true _ ▸ hq)] at h
      exact ih h

theorem collected_nil_iff {b l : List Operation} :
    collected b l = [] ↔ ∀ a ∈ l, qualifies b a = false := by
  constructor
  · intro h a hal
    by_contra hq
    have hq' : qualifies b a = true := by
      cases hqv : qualifies b a
      · exact absurd hqv hq
      · rfl
    rcases qualifies_def0 hq' with ⟨d, hd, _⟩
    have := mem_collected_of hal hq' hd
    rw [h] at this
    cases this
  · intro h
    induction l with
    | nil => rfl
    | cons x t ih =>
      rw [collected_cons_skip (h x (List.mem_cons_self x t))]
      exact ih fun a ha => h a (List.mem_cons_of_mem x ha)

theorem isVarHandle_false_of_isAssignVar {o : Operation}
    (h : isAssignVar o = true) : isVarHandle o = false := by
  cases o with
  | mk i k os ns => cases k <;> simp_all [Operation.kind, isAssignVar, isVarHandle]

theorem isVarHandle_false_of_isConstOp {o : Operation}
    (h : isConstOp o = true) : isVarHandle o = false := by
  cases o with
  | mk i k os ns => cases k <;> simp_all [Operation.kind, isConstOp, isVarHandle]

/-! ### Stability of the pattern match under one qualifying erasure -/

theorem qual_stable {b : List Operation} (hnd : (b.map Operation.oid).Nodup)
    {a c0 : Operation} (ha : a ∈ b) (haV : isAssignVar a = true)
    (hc0 : def1 b a = some c0) (hk0 : isConstOp c0 = true)
    {a2 : Operation} (ha2 : a2 ∈ b) (hne : a2 ≠ a) :
    qualifies (stepBody b a c0) a2 = qualifies b a2 ∧
    patternHandleIfQual (stepBody b a c0) a2 = patternHandleIfQual b a2 ∧
    (qualifies b a2 = true → def1 (stepBody b a c0) a2 = def1 b a2) := by
  rcases stepBody_filter b a c0 with ⟨p, hp⟩
  have hnd1 : ((stepBody b a c0).map Operation.oid).Nodup :=
    nodup_oid_sub hnd hp
  have hsub1 : ∀ x ∈ stepBody b a c0, x ∈ b := fun x hx => (stepBody_sub hx).1
  have hne_oid : a2.oid ≠ a.oid := fun he => hne (oid_inj hnd ha2 ha he)
  have hc0a : c0 ≠ a := ne_of_pred hk0 (isConstOp_false_of_isAssignVar haV)
  have hc0mem : c0 ∈ b := (definingOp_some (def1_some_elim hc0).choose_spec.2).2
  have hc0_oid : c0.oid ≠ a.oid := fun he => hc0a (oid_inj hnd hc0mem ha he)
  cases h0 : def0 b a2 with
  | none =>
    have h0' : def0 (stepBody b a c0) a2 = none := def0_none_mono hsub1 h0
    have hq : qualifies b a2 = false := qualifies_false_of_def0_none h0
    have hq1 : qualifies (stepBody b a c0) a2 = false :=
      qualifies_false_of_def0_none h0'
    refine ⟨by rw [hq, hq1], ?_, ?_⟩
    · rw [pHIQ_of_not_qual hq, pHIQ_of_not_qual hq1]
    · intro h
      rw [hq] at h
      cases h
  | some d2 =>
    rcases def0_some_elim h0 with ⟨r, hr, hdr⟩
    have hd2mem : d2 ∈ b := (definingOp_some hdr).2
    cases hv2 : isVarHandle d2 with
    | false =>
      have hq : qualifies b a2 = false := qualifies_false_of_not_vh h0 hv2
      by_cases hmem : d2 ∈ stepBody b a c0
      · have h0' : def0 (stepBody b a c0) a2 = some d2 := by
          rw [def0_intro hr]
          exact definingOp_transfer_mem hnd1 hdr hmem
        have hq1 : qualifies (stepBody b a c0) a2 = false :=
          qualifies_false_of_not_vh h0' hv2
        refine ⟨by rw [hq, hq1], ?_, ?_⟩
        · rw [pHIQ_of_not_qual hq, pHIQ_of_not_qual hq1]
        · intro h
          rw [hq] at h
          cases h
      · have h0' : def0 (stepBody b a c0) a2 = none := by
          rw [def0_intro hr]
          exact definingOp_transfer_none hnd hsub1 hdr hmem
        have hq1 : qualifies (stepBody b a c0) a2 = false :=
          qualifies_false_of_def0_none h0'
        refine ⟨by rw [hq, hq1], ?_, ?_⟩
        · rw [pHIQ_of_not_qual hq, pHIQ_of_not_qual hq1]
        · intro h
          rw [hq] at h
          cases h
    | true =>
      have hd2a : d2 ≠ a := ne_of_pred hv2 (isVarHandle_false_of_isAssignVar haV)
      have hd2c0 : d2 ≠ c0 := ne_of_pred hv2 (isVarHandle_false_of_isConstOp hk0)
      have hd2mem1 : d2 ∈ stepBody b a c0 :=
        mem_stepBody_of hd2mem (fun he => hd2a (oid_inj hnd hd2mem ha he))
          (fun he => hd2c0 (oid_inj hnd hd2mem hc0mem he))
      have h0' : def0 (stepBody b a c0) a2 = some d2 := by
        rw [def0_intro hr]
        exact definingOp_transfer_mem hnd1 hdr hd2mem1
      cases h1 : def1 b a2 with
      | none =>
        have h1' : def1 (stepBody b a c0) a2 = none := def1_none_mono hsub1 h1
        have hq : qualifies b a2 = false := qualifies_false_of_def1_none h1
        have hq1 : qualifies (stepBody b a c0) a2 = false :=
          qualifies_false_of_def1_none h1'
        refine ⟨by rw [hq, hq1], ?_, ?_⟩
        · rw [pHIQ_of_not_qual hq, pHIQ_of_not_qual hq1]
        · intro h
          rw [hq] at h
          cases h
      | some c2 =>
        rcases def1_some_elim h1 with ⟨v, hvv, hcv⟩
        have hc2mem : c2 ∈ b := (definingOp_some hcv).2
        cases hk2 : isConstOp c2 with
        | false =>
          have hq : qualifies b a2 = false := qualifies_false_of_not_const h1 hk2
          by_cases hmem : c2 ∈ stepBody b a c0
          · have h1' : def1 (stepBody b a c0) a2 = some c2 := by
              rw [def1_intro hvv]
              exact definingOp_transfer_mem hnd1 hcv hmem
            have hq1 : qualifies (stepBody b a c0) a2 = false :=
              qualifies_false_of_not_const h1' hk2
            refine ⟨by rw [hq, hq1], ?_, ?_⟩
            · rw [pHIQ_of_not_qual hq, pHIQ_of_not_qual hq1]
            · intro h
              rw [hq] at h
              cases h
          · have h1' : def1 (stepBody b a c0) a2 = none := by
              rw [def1_intro hvv]
              exact definingOp_transfer_none hnd hsub1 hcv hmem
            have hq1 : qualifies (stepBody b a c0) a2 = false :=
              qualifies_false_of_def1_none h1'
            refine ⟨by rw [hq, hq1], ?_, ?_⟩
            · rw [pHIQ_of_not_qual hq, pHIQ_of_not_qual hq1]
            · intro h
              rw [hq] at h
              cases h
        | true =>
          have hc2a : c2 ≠ a := ne_of_pred hk2 (isConstOp_false_of_isAssignVar haV)
          have hc2a_oid : c2.oid ≠ a.oid := fun he => hc2a (oid_inj hnd hc2mem ha he)
          have hc2mem1 : c2 ∈ stepBody b a c0 := by
            by_cases he : c2.oid = c0.oid
            · have he2 : c2 = c0 := oid_inj hnd hc2mem hc0mem he
              subst he2
              have huse : a2.usesId c2.oid = true := by
                rcases (definingOp_some hcv).1 with ⟨j, hj⟩
                exact usesId_of_operand (List.getElem?_mem hvv) hj
              have ha2e : a2 ∈ eraseOpId a.oid b := mem_eraseOpId.2 ⟨ha2, hne_oid⟩
              have hu : opsUseId (eraseOpId a.oid b) c2.oid = true :=
                opsUseId_iff.2 ⟨a2, ha2e, huse⟩
              exact mem_stepBody_c hu hc2mem hc2a_oid
            · exact mem_stepBody_of hc2mem hc2a_oid he
          have h1' : def1 (stepBody b a c0) a2 = some c2 := by
            rw [def1_intro hvv]
            exact definingOp_transfer_mem hnd1 hcv hc2mem1
          have hq : qualifies b a2 = true := qualifies_true_intro h0 hv2 h1 hk2
          have hq1 : qualifies (stepBody b a c0) a2 = true :=
            qualifies_true_intro h0' hv2 h1' hk2
          refine ⟨by rw [hq, hq1], ?_, fun _ => h1'⟩
          rw [pHIQ_of_qual hq, pHIQ_of_qual hq1, h0, h0']

/-! ### Auxiliary lemmas for the scan induction -/

theorem stripStep_crash0 {b acc : List Operation} {a : Operation}
    (h : a.operands[0]? = none) : stripStep b acc a = none := by
  simp [stripStep, h]

theorem stripStep_crash0d {b acc : List Operation} {a : Operation} {r : Value}
    (h0 : a.operands[0]? = some r) (hd : definingOp b r = none) :
    stripStep b acc a = none := by
  simp [stripStep, h0, hd]

theorem stripStep_skip_vh {b acc : List Operation} {a d : Operation}
    {r : Value} (h0 : a.operands[0]? = some r)
    (hd : definingOp b r = some d) (hv : isVarHandle d = false) :
    stripStep b acc a = some (b, acc) := by
  simp [stripStep, h0, hd, hv]

theorem stripStep_crash1 {b acc : List Operation} {a d : Operation}
    {r : Value} (h0 : a.operands[0]? = some r)
    (hd : definingOp b r = some d) (hv : isVarHandle d = true)
    (h1 : a.operands[1]? = none) : stripStep b acc a = none := by
  simp [stripStep, h0, hd, hv, h1]

theorem stripStep_crash1d {b acc : List Operation} {a d : Operation}
    {r v : Value} (h0 : a.operands[0]? = some r)
    (hd : definingOp b r = some d) (hv : isVarHandle d = true)
    (h1 : a.operands[1]? = some v) (hc : definingOp b v = none) :
    stripStep b acc a = none := by
  simp [stripStep, h0, hd, hv, h1, hc]

theorem stripStep_skip_const {b acc : List Operation} {a d c : Operation}
    {r v : Value} (h0 : a.operands[0]? = some r)
    (hd : definingOp b r = some d) (hv : isVarHandle d = true)
    (h1 : a.operands[1]? = some v) (hc : definingOp b v = some c)
    (hk : isConstOp c = false) : stripStep b acc a = some (b, acc) := by
  simp [stripStep, h0, hd, hv, h1, hc, hk]

theorem stripStep_qual {b acc : List Operation} {a d c : Operation}
    {r v : Value} (h0 : a.operands[0]? = some r)
    (hd : definingOp b r = some d) (hv : isVarHandle d = true)
    (h1 : a.operands[1]? = some v) (hc : definingOp b v = some c)
    (hk : isConstOp c = true) :
    stripStep b acc a = some (stepBody b a c, acc ++ [d]) := by
  simp [stripStep, h0, hd, hv, h1, hc, hk]

theorem stripGo_cons (a : Operation) (rest b acc : List Operation) :
    stripGo (a :: rest) b acc =
      match stripStep b acc a with
      | none => none
      | some (b1, acc1) => stripGo rest b1 acc1 := rfl

theorem sublist_filter_of_all {s t : List Operation} {p : Operation → Bool}
    (hs : List.Sublist s t) (hall : ∀ x ∈ s, p x = true) :
    List.Sublist s (t.filter p) := by
  have he : s.filter p = s := List.filter_eq_self.2 hall
  rw [← he]
  exact List.Sublist.filter p hs

theorem filter_swap (l : List Operation) (p q : Operation → Bool) :
    (l.filter p).filter q = (l.filter q).filter p := by
  rw [List.filter_filter, List.filter_filter]
  exact List.filter_congr fun a _ => Bool.and_comm (q a) (p a)

theorem stepBody_mem_not {b : List Operation} {a c o : Operation}
    (ho : o ∈ b) (hno : o ∉ stepBody b a c) :
    o.oid = a.oid ∨ o.oid = c.oid := by
  by_contra hcon
  push_neg at hcon
  exact hno (mem_stepBody_of ho hcon.1 hcon.2)

theorem stepBody_c_mem_pos {b : List Operation} {a c : Operation}
    (h : c ∈ stepBody b a c) :
    opsUseId (eraseOpId a.oid b) c.oid = true ∧
    stepBody b a c = eraseOpId a.oid b := by
  cases hu : opsUseId (eraseOpId a.oid b) c.oid
  · rw [stepBody_eq_neg hu] at h
    exact absurd rfl (mem_eraseOpId.1 h).2
  · exact ⟨rfl, stepBody_eq_pos hu⟩

theorem usesId_elim {o : Operation} {i : Nat} (h : o.usesId i = true) :
    (∃ v ∈ o.operands, valueRefs i v = true) ∨ opsUseId o.nested i = true := by
  cases o with
  | mk n k os ns =>
    simp only [Operation.usesId, Bool.or_eq_true, List.any_eq_true] at h
    simpa [Operation.operands, Operation.nested] using h

theorem valueRefs_elim {i : Nat} {v : Value} (h : valueRefs i v = true) :
    ∃ j, v = .res i j := by
  cases v with
  | arg n => simp [valueRefs] at h
  | res a j =>
    simp only [valueRefs, beq_iff_eq] at h
    exact ⟨j, by rw [h]⟩

theorem usesId_false_of_empty {o : Operation} (hos : o.operands = [])
    (hns : o.nested = []) (i : Nat) : o.usesId i = false := by
  cases o with
  | mk n k os ns =>
    simp only [Operation.operands] at hos
    simp only [Operation.nested] at hns
    subst hos
    subst hns
    simp [Operation.usesId, opsUseId]

theorem wfOp_const_elim {o : Operation} (hc : isConstOp o = true)
    (hw : wfOp o = true) : o.operands = [] ∧ o.nested = [] := by
  cases o with
  | mk n k os ns =>
    cases k <;>
      simp_all [Operation.kind, Operation.operands, Operation.nested,
        isConstOp, wfOp, List.isEmpty_iff]

theorem wfOp_assign_elim {o : Operation} (ha : isAssignVar o = true)
    (hw : wfOp o = true) : o.operands.length = 2 ∧ o.nested = [] := by
  cases o with
  | mk n k os ns =>
    cases k <;>
      simp_all [Operation.kind, Operation.operands, Operation.nested,
        isAssignVar, wfOp, List.isEmpty_iff]

theorem definingOp_lift {s b : List Operation}
    (hnd : (b.map Operation.oid).Nodup) (hsub : ∀ x ∈ s, x ∈ b)
    {v : Value} {x : Operation} (h : definingOp s v = some x) :
    definingOp b v = some x := by
  rcases (definingOp_some h).1 with ⟨j, rfl⟩
  exact definingOp_res_of_mem hnd (hsub x (definingOp_some h).2) j

theorem def0_lift {s b : List Operation}
    (hnd : (b.map Operation.oid).Nodup) (hsub : ∀ x ∈ s, x ∈ b)
    {a x : Operation} (h : def0 s a = some x) : def0 b a = some x := by
  rcases Option.bind_eq_some.1 h with ⟨r, hr, hdr⟩
  rw [def0_intro hr]
  exact definingOp_lift hnd hsub hdr

theorem def1_lift {s b : List Operation}
    (hnd : (b.map Operation.oid).Nodup) (hsub : ∀ x ∈ s, x ∈ b)
    {a x : Operation} (h : def1 s a = some x) : def1 b a = some x := by
  rcases Option.bind_eq_some.1 h with ⟨r, hr, hdr⟩
  rw [def1_intro hr]
  exact definingOp_lift hnd hsub hdr

theorem scanShape_lift {s b : List Operation}
    (hnd : (b.map Operation.oid).Nodup) (hsub : ∀ x ∈ s, x ∈ b)
    {a : Operation} (h : scanShape s a) : scanShape b a := by
  rcases h with ⟨d, hd, hrest⟩
  refine ⟨d, def0_lift hnd hsub hd, fun hv => ?_⟩
  rcases hrest hv with ⟨c, hc⟩
  exact ⟨c, def1_lift hnd hsub hc⟩

theorem isAssignVar_false_of_isConstOp {o : Operation}
    (h : isConstOp o = true) : isAssignVar o = false := by
  cases o with
  | mk i k os ns => cases k <;> simp_all [Operation.kind, isAssignVar, isConstOp]

theorem stripGo_cons_some {a : Operation} {rest b acc b1 acc1 : List Operation}
    (h : stripStep b acc a = some (b1, acc1)) :
    stripGo (a :: rest) b acc = stripGo rest b1 acc1 := by
  rw [stripGo_cons, h]

theorem stripGo_cons_none {a : Operation} {rest b acc : List Operation}
    (h : stripStep b acc a = none) :
    stripGo (a :: rest) b acc = none := by
  rw [stripGo_cons, h]

/-- Assembling the scan facts across a skipped assign. -/
theorem scanFacts_skip {a : Operation} {rest b acc b2 acc2 : List Operation}
    (haB : a ∈ b) (haV : isAssignVar a = true) (ha_not_rest : a ∉ rest)
    (hq : qualifies b a = false) (hshape : scanShape b a)
    (F : ScanFacts rest b acc b2 acc2) :
    ScanFacts (a :: rest) b acc b2 acc2 := by
  refine ⟨F.filt, ?_, ?_, ?_, ?_, F.constUsedKept, ?_, ?_⟩
  · rw [F.coll, collected_cons_skip hq]
  · intro x hx hqx
    rcases List.mem_cons.1 hx with rfl | hxr
    · rw [hq] at hqx
      cases hqx
    · exact F.qerased x hxr hqx
  · intro x hx hqx
    rcases List.mem_cons.1 hx with rfl | hxr
    · by_contra hnotmem
      rcases F.onlyAC x haB hnotmem with h | h
      · exact ha_not_rest h
      · rw [isConstOp_false_of_isAssignVar haV] at h
        cases h
    · exact F.skept x hxr hqx
  · intro o hoB honot
    rcases F.onlyAC o hoB honot with h | h
    · exact Or.inl (List.mem_cons_of_mem a h)
    · exact Or.inr h
  · intro x hx hqx c hc hcmem
    rcases List.mem_cons.1 hx with rfl | hxr
    · rw [hq] at hqx
      cases hqx
    · exact F.constKeptUsed x hxr hqx c hc hcmem
  · intro x hx
    rcases List.mem_cons.1 hx with rfl | hxr
    · exact hshape
    · exact F.shapes x hxr

/-- Assembling the scan facts across a qualifying (erasing) assign. -/
theorem scanFacts_qual {a d c : Operation} {rest b acc b2 acc2 : List Operation}
    (hnd : (b.map Operation.oid).Nodup) (hwf : ∀ o ∈ b, wfOp o = true)
    (hrest : List.Sublist rest (b.filter isAssignVar))
    (haB : a ∈ b) (haV : isAssignVar a = true) (ha_not_rest : a ∉ rest)
    (hd0 : def0 b a = some d) (hv : isVarHandle d = true)
    (hd1 : def1 b a = some c) (hk : isConstOp c = true)
    (F : ScanFacts rest (stepBody b a c) (acc ++ [d]) b2 acc2) :
    ScanFacts (a :: rest) b acc b2 acc2 := by
  have hq : qualifies b a = true := qualifies_true_intro hd0 hv hd1 hk
  rcases def1_some_elim hd1 with ⟨v1, hv1, hcv1⟩
  have hcB : c ∈ b := (definingOp_some hcv1).2
  have hsub_sb : ∀ x ∈ stepBody b a c, x ∈ b := fun x hx => (stepBody_sub hx).1
  have hsub_b2 : ∀ x ∈ b2, x ∈ stepBody b a c := by
    rcases F.filt with ⟨p2, hp2⟩
    exact fun x hx => List.mem_of_mem_filter (hp2 ▸ hx)
  have hstab : ∀ x ∈ rest,
      qualifies (stepBody b a c) x = qualifies b x ∧
      patternHandleIfQual (stepBody b a c) x = patternHandleIfQual b x ∧
      (qualifies b x = true →
        def1 (stepBody b a c) x = def1 b x) := by
    intro x hx
    have hxB : x ∈ b := List.mem_of_mem_filter (hrest.subset hx)
    have hxne : x ≠ a := fun he => ha_not_rest (he ▸ hx)
    exact qual_stable hnd haB haV hd1 hk hxB hxne
  refine ⟨?_, ?_, ?_, ?_, ?_, ?_, ?_, ?_⟩
  · rcases F.filt with ⟨p2, hp2⟩
    rcases stepBody_filter b a c with ⟨p1, hp1⟩
    exact ⟨fun o => p2 o && p1 o, by rw [hp2, hp1, List.filter_filter]⟩
  · have hcc : collected (stepBody b a c) rest = collected b rest :=
      collected_congr fun x hx => (hstab x hx).2.1
    rw [F.coll, hcc, collected_cons_qual hq hd0]
    simp
  · intro x hx hqx
    rcases List.mem_cons.1 hx with rfl | hxr
    · intro hmem
      exact not_mem_oid_stepBody
        (List.map_subset Operation.oid hsub_b2 hmem)
    · exact F.qerased x hxr (by rw [(hstab x hxr).1, hqx])
  · intro x hx hqx
    rcases List.mem_cons.1 hx with rfl | hxr
    · rw [hq] at hqx
      cases hqx
    · exact F.skept x hxr (by rw [(hstab x hxr).1, hqx])
  · intro o hoB honot
    by_cases hsb : o ∈ stepBody b a c
    · rcases F.onlyAC o hsb honot with h | h
      · exact Or.inl (List.mem_cons_of_mem a h)
      · exact Or.inr h
    · rcases stepBody_mem_not hoB hsb with he | he
      · have heq : o = a := oid_inj hnd hoB haB he
        exact Or.inl (heq ▸ List.mem_cons_self a rest)
      · have heq : o = c := oid_inj hnd hoB hcB he
        exact Or.inr (heq ▸ hk)
  · intro o hoB hoK huse
    by_cases hsb : o ∈ stepBody b a c
    · exact F.constUsedKept o hsb hoK huse
    · exfalso
      rcases stepBody_mem_not hoB hsb with he | he
      · exact ne_of_pred hoK (isConstOp_false_of_isAssignVar haV)
          (oid_inj hnd hoB haB he)
      · have hoc : o = c := oid_inj hnd hoB hcB he
        subst hoc
        rcases opsUseId_iff.1 huse with ⟨u, huB2, huU⟩
        cases hu : opsUseId (eraseOpId a.oid b) o.oid with
        | false =>
          have hu_sb : u ∈ stepBody b a o := hsub_b2 u huB2
          have hu_er : u ∈ eraseOpId a.oid b := by
            rw [stepBody_eq_neg hu] at hu_sb
            exact (mem_eraseOpId.1 hu_sb).1
          have : opsUseId (eraseOpId a.oid b) o.oid = true :=
            opsUseId_iff.2 ⟨u, hu_er, huU⟩
          rw [hu] at this
          cases this
        | true =>
          have hcne : o.oid ≠ a.oid := fun he2 =>
            ne_of_pred hoK (isConstOp_false_of_isAssignVar haV)
              (oid_inj hnd hoB haB he2)
          exact hsb (by
            rw [stepBody_eq_pos hu]
            exact mem_eraseOpId.2 ⟨hoB, hcne⟩)
  · intro x hx hqx c2 hc2 hc2mem
    rcases List.mem_cons.1 hx with rfl | hxr
    · have hcc : c = c2 := by
        rw [hd1] at hc2
        exact Option.some.inj hc2
      subst hcc
      have hc_sb : c ∈ stepBody b x c := hsub_b2 c hc2mem
      rcases stepBody_c_mem_pos hc_sb with ⟨hu, hsb_eq⟩
      rcases opsUseId_iff.1 hu with ⟨u, hu_er, huU⟩
      by_cases huB2 : u ∈ b2
      · exact opsUseId_iff.2 ⟨u, huB2, huU⟩
      · have hu_sb : u ∈ stepBody b x c := by
          rw [hsb_eq]
          exact hu_er
        rcases F.onlyAC u hu_sb huB2 with hur | huK
        · have huF : u ∈ b.filter isAssignVar := hrest.subset hur
          have huB : u ∈ b := List.mem_of_mem_filter huF
          have huV : isAssignVar u = true := List.of_mem_filter huF
          cases hqu : qualifies (stepBody b x c) u with
          | false => exact absurd (F.skept u hur hqu) huB2
          | true =>
            have hqub : qualifies b u = true := by
              rw [← (hstab u hur).1, hqu]
            have hwfu := wfOp_assign_elim huV (hwf u huB)
            rcases usesId_elim huU with ⟨w, hw, hwr⟩ | hnest
            · rcases valueRefs_elim hwr with ⟨j, rfl⟩
              rcases List.length_eq_two.1 hwfu.1 with ⟨w0, w1, hops⟩
              rw [hops] at hw
              rcases List.mem_cons.1 hw with heq0 | hw1
              · exfalso
                have hdef0 : def0 b u = some c := by
                  have h0u : u.operands[0]? = some (Value.res c.oid j) := by
                    rw [hops, ← heq0]
                    rfl
                  rw [def0_intro h0u]
                  exact definingOp_res_of_mem hnd hcB j
                rcases qualifies_def0 hqub with ⟨dd, hdd, hvv⟩
                rw [hdef0] at hdd
                have : dd = c := (Option.some.inj hdd).symm
                subst this
                rw [isVarHandle_false_of_isConstOp hk] at hvv
                cases hvv
              · rcases List.mem_cons.1 hw1 with heq1 | hnil
                · have hdef1 : def1 b u = some c := by
                    have h1u : u.operands[1]? = some (Value.res c.oid j) := by
                      rw [hops, ← heq1]
                      rfl
                    rw [def1_intro h1u]
                    exact definingOp_res_of_mem hnd hcB j
                  have hdef1' : def1 (stepBody b x c) u = some c := by
                    rw [(hstab u hur).2.2 hqub, hdef1]
                  exact F.constKeptUsed u hur hqu c hdef1' hc2mem
                · cases hnil
            · rw [hwfu.2] at hnest
              simp [opsUseId] at hnest
        · have hwfu := wfOp_const_elim huK (hwf u (hsub_sb u hu_sb))
          rw [usesId_false_of_empty hwfu.1 hwfu.2] at huU
          cases huU
    · have hq1 : qualifies (stepBody b a c) x = true := by
        rw [(hstab x hxr).1, hqx]
      have hd1' : def1 (stepBody b a c) x = some c2 := by
        rw [(hstab x hxr).2.2 hqx, hc2]
      exact F.constKeptUsed x hxr hq1 c2 hd1' hc2mem
  · intro x hx
    rcases List.mem_cons.1 hx with rfl | hxr
    · exact ⟨d, hd0, fun _ => ⟨c, hd1⟩⟩
    · exact scanShape_lift hnd hsub_sb (F.shapes x hxr)

/-- Main invariant of the scan loop: everything `ScanFacts` records holds
of any successful run of `stripGo` on a snapshot of assign operations. -/
theorem stripGo_facts :
    ∀ (l b acc b2 acc2 : List Operation),
      List.Sublist l (b.filter isAssignVar) →
      (b.map Operation.oid).Nodup →
      (∀ o ∈ b, wfOp o = true) →
      stripGo l b acc = some (b2, acc2) →
      ScanFacts l b acc b2 acc2 := by
  intro l
  induction l with
  | nil =>
    intro b acc b2 acc2 hl hnd hwf hgo
    simp only [stripGo, Option.some.injEq, Prod.mk.injEq] at hgo
    obtain ⟨rfl, rfl⟩ := hgo
    refine ⟨⟨fun _ => true, by simp⟩, by simp [collected], ?_, ?_, ?_, ?_, ?_, ?_⟩
    · intro x hx
      cases hx
    · intro x hx
      cases hx
    · intro o ho hno
      exact (hno ho).elim
    · intro o ho _ _
      exact ho
    · intro x hx
      cases hx
    · intro x hx
      cases hx
  | cons a rest ih =>
    intro b acc b2 acc2 hl hnd hwf hgo
    have haF : a ∈ b.filter isAssignVar := hl.subset (List.mem_cons_self a rest)
    have haB : a ∈ b := List.mem_of_mem_filter haF
    have haV : isAssignVar a = true := List.of_mem_filter haF
    have hrest : List.Sublist rest (b.filter isAssignVar) :=
      List.sublist_of_cons_sublist hl
    have hndb : b.Nodup := List.Nodup.of_map _ hnd
    have hlnd : (a :: rest).Nodup := (hndb.filter _).sublist hl
    have ha_not_rest : a ∉ rest := (List.nodup_cons.1 hlnd).1
    cases h0 : a.operands[0]? with
    | none =>
      rw [stripGo_cons_none (stripStep_crash0 h0)] at hgo
      cases hgo
    | some r =>
      cases hdr : definingOp b r with
      | none =>
        rw [stripGo_cons_none (stripStep_crash0d h0 hdr)] at hgo
        cases hgo
      | some d =>
        have hd0 : def0 b a = some d := by
          rw [def0_intro h0]
          exact hdr
        cases hv : isVarHandle d with
        | false =>
          rw [stripGo_cons_some (stripStep_skip_vh h0 hdr hv)] at hgo
          have F := ih b acc b2 acc2 hrest hnd hwf hgo
          exact scanFacts_skip haB haV ha_not_rest
            (qualifies_false_of_not_vh hd0 hv)
            ⟨d, hd0, fun hvt => absurd hvt (by simp [hv])⟩ F
        | true =>
          cases h1 : a.operands[1]? with
          | none =>
            rw [stripGo_cons_none (stripStep_crash1 h0 hdr hv h1)] at hgo
            cases hgo
          | some v =>
            cases hcv : definingOp b v with
            | none =>
              rw [stripGo_cons_none (stripStep_crash1d h0 hdr hv h1 hcv)] at hgo
              cases hgo
            | some c =>
              have hd1 : def1 b a = some c := by
                rw [def1_intro h1]
                exact hcv
              have hcB : c ∈ b := (definingOp_some hcv).2
              cases hk : isConstOp c with
              | false =>
                rw [stripGo_cons_some
                  (stripStep_skip_const h0 hdr hv h1 hcv hk)] at hgo
                have F := ih b acc b2 acc2 hrest hnd hwf hgo
                exact scanFacts_skip haB haV ha_not_rest
                  (qualifies_false_of_not_const hd1 hk)
                  ⟨d, hd0, fun _ => ⟨c, hd1⟩⟩ F
              | true =>
                rw [stripGo_cons_some
                  (stripStep_qual h0 hdr hv h1 hcv hk)] at hgo
                rcases stepBody_filter b a c with ⟨p, hp⟩
                have hnd1 : ((stepBody b a c).map Operation.oid).Nodup :=
                  nodup_oid_sub hnd hp
                have hwf1 : ∀ o ∈ stepBody b a c, wfOp o = true :=
                  fun o ho => hwf o (stepBody_sub ho).1
                have hall : ∀ x ∈ rest, x ∈ stepBody b a c := by
                  intro x hx
                  have hxF := hrest.subset hx
                  have hxB : x ∈ b := List.mem_of_mem_filter hxF
                  have hxV : isAssignVar x = true := List.of_mem_filter hxF
                  have hxa : x ≠ a := fun he => ha_not_rest (he ▸ hx)
                  have hxc : x ≠ c :=
                    ne_of_pred hxV (isAssignVar_false_of_isConstOp hk)
                  exact mem_stepBody_of hxB
                    (fun he => hxa (oid_inj hnd hxB haB he))
                    (fun he => hxc (oid_inj hnd hxB hcB he))
                have hallp : ∀ x ∈ rest, p x = true :=
                  fun x hx => (List.mem_filter.1 (hp ▸ hall x hx)).2
                have hrest1 :
                    List.Sublist rest ((stepBody b a c).filter isAssignVar) := by
                  have hs : List.Sublist rest
                      ((b.filter isAssignVar).filter p) :=
                    sublist_filter_of_all hrest hallp
                  rw [filter_swap] at hs
                  rw [← hp] at hs
                  exact hs
                have F := ih (stepBody b a c) (acc ++ [d]) b2 acc2
                  hrest1 hnd1 hwf1 hgo
                exact scanFacts_qual hnd hwf hrest haB haV ha_not_rest
                  hd0 hv hd1 hk F

/-! ### Corollaries at the level of `RemoveAssignVariableOpsAndConstOps` -/

theorem removeAssign_facts {b b2 hs : List Operation} (hwf : wfBody b)
    (h : removeAssignVariableOpsAndConstOps b = some (b2, hs)) :
    ScanFacts (b.filter isAssignVar) b [] b2 hs :=
  stripGo_facts _ b [] b2 hs (List.Sublist.refl _) hwf.1 hwf.2.1 h

theorem removeAssign_handles {b b2 hs : List Operation} (hwf : wfBody b)
    (h : removeAssignVariableOpsAndConstOps b = some (b2, hs)) :
    hs = collected b (b.filter isAssignVar) := by
  have := (removeAssign_facts hwf h).coll
  simpa using this

theorem removeAssign_filter {b b2 hs : List Operation} (hwf : wfBody b)
    (h : removeAssignVariableOpsAndConstOps b = some (b2, hs)) :
    ∃ p, b2 = b.filter p :=
  (removeAssign_facts hwf h).filt

theorem removeAssign_sub {b b2 hs : List Operation} (hwf : wfBody b)
    (h : removeAssignVariableOpsAndConstOps b = some (b2, hs)) :
    ∀ o ∈ b2, o ∈ b := by
  rcases removeAssign_filter hwf h with ⟨p, hp⟩
  exact fun o ho => List.mem_of_mem_filter (hp ▸ ho)

/-- Any operation whose defining use is still referenced from a surviving
operation survives the scan itself (constants by the use-empty check,
everything else because only assigns and dead constants are erased). -/
theorem def_survives {b b2 hs : List Operation} (hwf : wfBody b)
    (h : removeAssignVariableOpsAndConstOps b = some (b2, hs))
    {u : Operation} (hu : u ∈ b2) {k : Nat} {v : Value} {x : Operation}
    (hop : u.operands[k]? = some v) (hdef : definingOp b v = some x) :
    x ∈ b2 := by
  have F := removeAssign_facts hwf h
  have huB : u ∈ b := removeAssign_sub hwf h u hu
  have hxB : x ∈ b := (definingOp_some hdef).2
  rcases (definingOp_some hdef).1 with ⟨j, hvres⟩
  subst hvres
  have href : refOk b (Value.res x.oid j) = true :=
    hwf.2.2 u huB _ (List.getElem?_mem hop)
  have hfind : findOpById b x.oid = some x := findOpById_of_mem hwf.1 hxB
  simp only [refOk, hfind, decide_eq_true_eq] at href
  have hxA : isAssignVar x = false := by
    cases hxa : isAssignVar x
    · rfl
    · rw [numResults_eq_zero_of_isAssignVar hxa] at href
      omega
  by_cases hxC : isConstOp x = true
  · have huse : u.usesId x.oid = true :=
      usesId_of_operand (List.getElem?_mem hop) rfl
    exact F.constUsedKept x hxB hxC (opsUseId_iff.2 ⟨u, hu, huse⟩)
  · by_contra hxn
    rcases F.onlyAC x hxB hxn with hxl | hxc
    · rw [List.of_mem_filter hxl] at hxA
      cases hxA
    · exact hxC hxc

theorem stripGo_skips {l b acc b2 acc2 : List Operation}
    (hq : ∀ a ∈ l, qualifies b a = false)
    (hgo : stripGo l b acc = some (b2, acc2)) : b2 = b ∧ acc2 = acc := by
  induction l with
  | nil =>
    simp only [stripGo, Option.some.injEq, Prod.mk.injEq] at hgo
    exact ⟨hgo.1.symm, hgo.2.symm⟩
  | cons a rest ih =>
    have hqa := hq a (List.mem_cons_self a rest)
    cases h0 : a.operands[0]? with
    | none =>
      rw [stripGo_cons_none (stripStep_crash0 h0)] at hgo
      cases hgo
    | some r =>
      cases hdr : definingOp b r with
      | none =>
        rw [stripGo_cons_none (stripStep_crash0d h0 hdr)] at hgo
        cases hgo
      | some d =>
        have hd0 : def0 b a = some d := by
          rw [def0_intro h0]
          exact hdr
        cases hv : isVarHandle d with
        | false =>
          rw [stripGo_cons_some (stripStep_skip_vh h0 hdr hv)] at hgo
          exact ih (fun x hx => hq x (List.mem_cons_of_mem a hx)) hgo
        | true =>
          cases h1 : a.operands[1]? with
          | none =>
            rw [stripGo_cons_none (stripStep_crash1 h0 hdr hv h1)] at hgo
            cases hgo
          | some v =>
            cases hcv : definingOp b v with
            | none =>
              rw [stripGo_cons_none (stripStep_crash1d h0 hdr hv h1 hcv)] at hgo
              cases hgo
            | some c =>
              have hd1 : def1 b a = some c := by
                rw [def1_intro h1]
                exact hcv
              cases hk : isConstOp c with
              | false =>
                rw [stripGo_cons_some
                  (stripStep_skip_const h0 hdr hv h1 hcv hk)] at hgo
                exact ih (fun x hx => hq x (List.mem_cons_of_mem a hx)) hgo
              | true =>
                rw [qualifies_true_intro hd0 hv hd1 hk] at hqa
                cases hqa

theorem removeAssign_empty_id {b b2 : List Operation} (hwf : wfBody b)
    (h : removeAssignVariableOpsAndConstOps b = some (b2, [])) :
    b2 = b := by
  have hcoll : collected b (b.filter isAssignVar) = [] :=
    (removeAssign_handles hwf h).symm
  exact (stripGo_skips (collected_nil_iff.1 hcoll) h).1

theorem preds_of_retOp {o : Operation} (h : o.kind = OpKind.retOp) :
    isAssignVar o = false ∧ isConstOp o = false := by
  cases o with
  | mk i k os ns =>
    simp only [Operation.kind] at h
    subst h
    simp [isAssignVar, isConstOp, Operation.kind]

/-- The terminator survives the scan and stays last. -/
theorem term_survives {b b2 hs : List Operation} (hwf : wfBody b)
    (hrm : removeAssignVariableOpsAndConstOps b = some (b2, hs))
    {t : Operation} (hlast : b.getLast? = some t)
    (htk : t.kind = OpKind.retOp) :
    t ∈ b2 ∧ ∃ A, b2 = A ++ [t] := by
  have F := removeAssign_facts hwf hrm
  have hbne : b ≠ [] := by
    intro he
    rw [he] at hlast
    cases hlast
  have htb : t ∈ b := List.mem_of_mem_getLast? (hlast ▸ rfl)
  have htmem : t ∈ b2 := by
    by_contra htn
    rcases F.onlyAC t htb htn with hl | hc
    · have hla := List.of_mem_filter hl
      rw [(preds_of_retOp htk).1] at hla
      cases hla
    · rw [(preds_of_retOp htk).2] at hc
      cases hc
  rcases F.filt with ⟨p, hp⟩
  have hpt : p t = true := (List.mem_filter.1 (hp ▸ htmem)).2
  have hbd : b.dropLast ++ [t] = b := by
    have h2 := List.dropLast_append_getLast hbne
    have h3 : b.getLast hbne = t := by
      have h4 := List.getLast?_eq_getLast b hbne
      rw [h4] at hlast
      exact Option.some.inj hlast
    rw [h3] at h2
    exact h2
  refine ⟨htmem, ⟨(b.dropLast).filter p, ?_⟩⟩
  rw [hp, ← hbd, List.filter_append]
  simp [hpt]

/-! ### Unfolding `runPass` -/

theorem runPass_no_init {m : ModuleOp} (h : findRestoreInit m.funcs = none) :
    runPass m = some m := by
  simp [runPass, h]

theorem runPass_crash {m : ModuleOp} {k : Nat} {f : FuncOp}
    (hk : findRestoreInit m.funcs = some k) (hf : m.funcs[k]? = some f)
    (hs : removeAssignVariableOpsAndConstOps f.body = none) :
    runPass m = none := by
  simp [runPass, hk, hf, hs]

theorem runPass_empty {m : ModuleOp} {k : Nat} {f : FuncOp}
    {b2 : List Operation} (hk : findRestoreInit m.funcs = some k)
    (hf : m.funcs[k]? = some f)
    (hs : removeAssignVariableOpsAndConstOps f.body = some (b2, [])) :
    runPass m = some ⟨m.funcs.set k { f with body := b2 }⟩ := by
  simp [runPass, hk, hf, hs]

theorem runPass_mutating {m : ModuleOp} {k : Nat} {f : FuncOp}
    {b2 hs : List Operation} (hk : findRestoreInit m.funcs = some k)
    (hf : m.funcs[k]? = some f)
    (hsc : removeAssignVariableOpsAndConstOps f.body = some (b2, hs))
    (hne : hs ≠ []) :
    runPass m = some ⟨m.funcs.set k
      (createRestoreV2Op (freshBase m) hs { f with body := b2 })⟩ := by
  have : hs.isEmpty = false := by
    cases hs with
    | nil => exact absurd rfl hne
    | cons x t => rfl
  simp [runPass, hk, hf, hsc, this]

theorem runPass_empty_id {m : ModuleOp} {k : Nat} {f : FuncOp}
    {b2 : List Operation} (hk : findRestoreInit m.funcs = some k)
    (hf : m.funcs[k]? = some f) (hwf : wfBody f.body)
    (hs : removeAssignVariableOpsAndConstOps f.body = some (b2, [])) :
    runPass m = some m := by
  rw [runPass_empty hk hf hs, removeAssign_empty_id hwf hs]
  have he : { f with body := f.body } = f := rfl
  rw [he, set_getElem?_self hf]

/-! ### Structure of the transformed function -/

theorem createRestore_args (base : Nat) (hs : List Operation) (f : FuncOp) :
    (createRestoreV2Op base hs f).args = f.args ++ [filePfxArg] := rfl

theorem createRestore_name (base : Nat) (hs : List Operation) (f : FuncOp) :
    (createRestoreV2Op base hs f).name = f.name := rfl

theorem createRestore_initType (base : Nat) (hs : List Operation)
    (f : FuncOp) : (createRestoreV2Op base hs f).initType = f.initType := rfl

theorem createRestore_body (base : Nat) (hs : List Operation) (f : FuncOp) :
    (createRestoreV2Op base hs f).body =
      insertBeforeTerm (synthOps base f.args.length hs) f.body := rfl

theorem insertBeforeTerm_perm (newOps b : List Operation) :
    List.Perm (insertBeforeTerm newOps b) (b ++ newOps) := by
  unfold insertBeforeTerm
  rw [List.append_assoc]
  have h1 : List.Perm (newOps ++ b.drop (b.length - 1))
      (b.drop (b.length - 1) ++ newOps) := List.perm_append_comm
  have h2 := List.Perm.append_left (b.take (b.length - 1)) h1
  have h3 : b.take (b.length - 1) ++ (b.drop (b.length - 1) ++ newOps)
      = (b.take (b.length - 1) ++ b.drop (b.length - 1)) ++ newOps :=
    (List.append_assoc _ _ _).symm
  rw [h3, List.take_append_drop] at h2
  exact h2

theorem mem_insertBeforeTerm {newOps b : List Operation} {o : Operation} :
    o ∈ insertBeforeTerm newOps b ↔ o ∈ b ∨ o ∈ newOps := by
  rw [(insertBeforeTerm_perm newOps b).mem_iff, List.mem_append]

theorem newAssignOps_length (base : Nat) (hs : List Operation) :
    (newAssignOps base hs).length = hs.length := by
  unfold newAssignOps
  rw [List.length_map, List.enum_length]

theorem newAssignOps_map_oid (base : Nat) (hs : List Operation) :
    (newAssignOps base hs).map Operation.oid =
      (List.range hs.length).map (fun i => base + 3 + i) := by
  unfold newAssignOps
  rw [List.map_map]
  have he : (Operation.oid ∘ fun p : Nat × Operation =>
      Operation.mk (base + 3 + p.1) .assignVariable
        [Value.res p.2.oid 0, Value.res (base + 2) p.1] []) =
      fun p : Nat × Operation => base + 3 + p.1 := rfl
  rw [he, ← List.enum_map_fst hs, List.map_map]
  rfl

theorem mem_newAssignOps {base : Nat} {hs : List Operation} {o : Operation}
    (h : o ∈ newAssignOps base hs) :
    ∃ i h', hs[i]? = some h' ∧
      o = Operation.mk (base + 3 + i) .assignVariable
        [Value.res h'.oid 0, Value.res (base + 2) i] [] := by
  unfold newAssignOps at h
  rcases List.mem_map.1 h with ⟨p, hp, rfl⟩
  exact ⟨p.1, p.2, List.mk_mem_enum_iff_getElem?.1 hp, rfl⟩

theorem newAssignOps_getElem? (base : Nat) {i : Nat} {hs : List Operation}
    {x : Operation} (hi : hs[i]? = some x) :
    (newAssignOps base hs)[i]? = some (Operation.mk (base + 3 + i)
      .assignVariable [Value.res x.oid 0, Value.res (base + 2) i] []) := by
  unfold newAssignOps
  rw [List.getElem?_map, List.getElem?_enum, hi]
  rfl

theorem synthOps_map_oid (base argIdx : Nat) (hs : List Operation) :
    (synthOps base argIdx hs).map Operation.oid =
      base :: (base + 1) :: (base + 2) ::
        (List.range hs.length).map (fun i => base + 3 + i) := by
  show base :: (base + 1) :: (base + 2) ::
    (newAssignOps base hs).map Operation.oid = _
  rw [newAssignOps_map_oid]

theorem synthOps_oid_nodup (base argIdx : Nat) (hs : List Operation) :
    ((synthOps base argIdx hs).map Operation.oid).Nodup := by
  rw [synthOps_map_oid]
  refine List.nodup_cons.2 ⟨?_, List.nodup_cons.2 ⟨?_,
    List.nodup_cons.2 ⟨?_, ?_⟩⟩⟩
  · simp only [List.mem_cons, List.mem_map, List.mem_range]
    push_neg
    refine ⟨by omega, by omega, fun i _ => by omega⟩
  · simp only [List.mem_cons, List.mem_map, List.mem_range]
    push_neg
    refine ⟨by omega, fun i _ => by omega⟩
  · simp only [List.mem_map, List.mem_range]
    push_neg
    exact fun i _ => by omega
  · exact (List.nodup_range _).map fun i j h => by omega

theorem synthOps_oid_ge {base argIdx x : Nat} {hs : List Operation}
    (h : x ∈ (synthOps base argIdx hs).map Operation.oid) : base ≤ x := by
  rw [synthOps_map_oid] at h
  simp only [List.mem_cons, List.mem_map, List.mem_range] at h
  rcases h with rfl | rfl | rfl | ⟨i, _, rfl⟩ <;> omega

theorem transformed_body_nodup {b2 : List Operation} {base argIdx : Nat}
    (hnd2 : (b2.map Operation.oid).Nodup)
    (hbound : ∀ x ∈ b2.map Operation.oid, x < base) (hs : List Operation) :
    ((insertBeforeTerm (synthOps base argIdx hs) b2).map
      Operation.oid).Nodup := by
  have hperm := (insertBeforeTerm_perm (synthOps base argIdx hs) b2).map
    Operation.oid
  apply (List.Perm.nodup_iff hperm).2
  rw [List.map_append]
  refine List.nodup_append.2 ⟨hnd2, synthOps_oid_nodup base argIdx hs, ?_⟩
  intro x hx1 hx2
  have h1 := hbound x hx1
  have h2 := synthOps_oid_ge hx2
  omega

theorem insertBeforeTerm_concat {A : List Operation} {t : Operation}
    (newOps : List Operation) :
    insertBeforeTerm newOps (A ++ [t]) = A ++ newOps ++ [t] := by
  unfold insertBeforeTerm
  have hlen : (A ++ [t]).length - 1 = A.length := by simp
  rw [hlen, List.take_left, List.drop_left]

theorem b2_oid_lt_base {m : ModuleOp} {f : FuncOp} (hf : f ∈ m.funcs)
    {b2 : List Operation} (hsub : ∀ o ∈ b2, o ∈ f.body) :
    ∀ x ∈ b2.map Operation.oid, x < freshBase m := by
  intro x hx
  rcases List.mem_map.1 hx with ⟨o, ho, rfl⟩
  have := oid_le_moduleMaxId hf (hsub o ho)
  unfold freshBase
  omega

theorem isConstOp_false_of_isRestore {o : Operation}
    (h : isRestore o = true) : isConstOp o = false := by
  cases o with
  | mk i k os ns => cases k <;> simp_all [Operation.kind, isConstOp, isRestore]

/-- Counting operations of a kind that the scan can never erase. -/
theorem removeAssign_count_preserved {b b2 hs : List Operation}
    (hwf : wfBody b)
    (hsc : removeAssignVariableOpsAndConstOps b = some (b2, hs))
    {q : Operation → Bool}
    (hq : ∀ o, q o = true → isAssignVar o = false ∧ isConstOp o = false) :
    countOps q b2 = countOps q b := by
  rcases removeAssign_filter hwf hsc with ⟨p, hp⟩
  have F := removeAssign_facts hwf hsc
  have hsurv : ∀ o ∈ b, q o = true → o ∈ b2 := by
    intro o hoB hoq
    by_contra hno
    rcases F.onlyAC o hoB hno with hl | hc
    · have := List.of_mem_filter hl
      rw [(hq o hoq).1] at this
      cases this
    · rw [(hq o hoq).2] at hc
      cases hc
  unfold countOps
  rw [hp, List.filter_filter]
  congr 1
  apply List.filter_congr
  intro o hoB
  cases hqo : q o
  · simp
  · simp only [Bool.true_and]
    have : o ∈ b.filter p := hp ▸ hsurv o hoB hqo
    exact (List.mem_filter.1 this).2

theorem stripGo_all_skip {l b : List Operation}
    (h : ∀ a ∈ l, ∀ acc, stripStep b acc a = some (b, acc)) :
    ∀ acc, stripGo l b acc = some (b, acc) := by
  induction l with
  | nil => intro acc; rfl
  | cons a rest ih =>
    intro acc
    rw [stripGo_cons_some (h a (List.mem_cons_self a rest) acc)]
    exact ih (fun x hx acc2 => h x (List.mem_cons_of_mem a hx) acc2) acc

theorem not_const_of_qual_false {b : List Operation} {a d c : Operation}
    (hd0 : def0 b a = some d) (hv : isVarHandle d = true)
    (hd1 : def1 b a = some c) (hq : qualifies b a = false) :
    isConstOp c = false := by
  cases hk : isConstOp c
  · rfl
  · rw [qualifies_true_intro hd0 hv hd1 hk] at hq
    cases hq

/-- The mutating run, packaged: the transformed function sits at index `k`
and every other function is untouched. -/
theorem runPass_mutating_getElem {m : ModuleOp} {k : Nat} {f : FuncOp}
    {b2 hs : List Operation} (hk : findRestoreInit m.funcs = some k)
    (hf : m.funcs[k]? = some f)
    (hsc : removeAssignVariableOpsAndConstOps f.body = some (b2, hs))
    (hne : hs ≠ []) :
    ∃ m2, runPass m = some m2 ∧
      m2.funcs[k]? =
        some (createRestoreV2Op (freshBase m) hs { f with body := b2 }) ∧
      ∀ j, j ≠ k → m2.funcs[j]? = m.funcs[j]? := by
  have hklt : k < m.funcs.length := (List.getElem?_eq_some.1 hf).1
  refine ⟨_, runPass_mutating hk hf hsc hne, ?_, ?_⟩
  · show (m.funcs.set k _)[k]? = some _
    rw [List.getElem?_set_self']
    simp [hklt]
  · intro j hj
    exact List.getElem?_set_ne fun he => hj he.symm

/-! ### Claim C4 -/

/-- C4 counterexample: the claim says an `AssignVariable` whose operand 0
is a function argument is skipped "without failing", but the scan of a
body whose only assign reads both operands from block arguments aborts
(the source calls `dyn_cast` on the null result of `getDefiningOp`),
modelled as `none`. -/
theorem C4_counterexample :
    (assignOp 1 (.arg 0) (.arg 1)) ∈ bCrash4 ∧
    isAssignVar (assignOp 1 (.arg 0) (.arg 1)) = true ∧
    (assignOp 1 (.arg 0) (.arg 1)).operands[0]? = some (Value.arg 0) ∧
    removeAssignVariableOpsAndConstOps bCrash4 = none :=
  ⟨List.mem_cons_self _ _, rfl, rfl, rfl⟩

/-- C4 (amended): an `AssignVariable` whose operand 0 is defined by an
operation that is not a `VarHandleOp`, or whose operand 0 is defined by a
`VarHandleOp` and whose operand 1 is defined by an operation that is not
a `ConstOp`, is skipped by the scan without any mutation (its step leaves
the body and the collected handles untouched) and still belongs to the
scanned body afterwards; an operand that is a block argument instead
makes the scan fail (`dyn_cast` of a null pointer), it is not skipped. -/
theorem C4_amended (b b2 hs : List Operation) (a : Operation)
    (hwf : wfBody b)
    (hsc : removeAssignVariableOpsAndConstOps b = some (b2, hs))
    (ha : a ∈ b) (haV : isAssignVar a = true)
    (hshape : (∃ d, def0 b a = some d ∧ isVarHandle d = false) ∨
      (∃ d c, def0 b a = some d ∧ isVarHandle d = true ∧
        def1 b a = some c ∧ isConstOp c = false)) :
    (∀ acc, stripStep b acc a = some (b, acc)) ∧ a ∈ b2 := by
  have hq : qualifies b a = false := by
    rcases hshape with ⟨d, hd, hv⟩ | ⟨d, c, hd, hv, hc, hk⟩
    · exact qualifies_false_of_not_vh hd hv
    · exact qualifies_false_of_not_const hc hk
  have F := removeAssign_facts hwf hsc
  have haF : a ∈ b.filter isAssignVar := List.mem_filter.2 ⟨ha, haV⟩
  refine ⟨?_, F.skept a haF hq⟩
  intro acc
  rcases hshape with ⟨d, hd, hv⟩ | ⟨d, c, hd, hv, hc, hk⟩
  · rcases def0_some_elim hd with ⟨r, hr, hdr⟩
    exact stripStep_skip_vh hr hdr hv
  · rcases def0_some_elim hd with ⟨r, hr, hdr⟩
    rcases def1_some_elim hc with ⟨v, hv1, hcv⟩
    exact stripStep_skip_const hr hdr hv hv1 hcv hk

/-- C4 witness: in `bSkip4` the assign reads its value from a second
`VarHandleOp`, so it is skipped and survives. -/
theorem C4_witness :
    (∀ acc, stripStep bSkip4 acc (assignOp 3 (.res 1 0) (.res 2 0)) =
      some (bSkip4, acc)) ∧
    assignOp 3 (.res 1 0) (.res 2 0) ∈ bSkip4 :=
  C4_amended bSkip4 bSkip4 [] (assignOp 3 (.res 1 0) (.res 2 0))
    (by unfold wfBody; decide) rfl
    (List.mem_cons_of_mem _ (List.mem_cons_of_mem _ (List.mem_cons_self _ _)))
    rfl
    (Or.inr ⟨vhOp 1 "x" 1, vhOp 2 "y" 2, rfl, rfl, rfl, rfl⟩)

/-! ### Claim C6 -/

/-- C6: for every qualifying pattern, after the scan the pattern constant
is present exactly when it still has a use among the surviving
operations (so a constant shared by several qualifying assigns survives
exactly until its last consuming assignment is removed), and the handle
of every qualifying assign appears in the collected output. -/
theorem C6_const_erased_iff_unused (b b2 hs : List Operation)
    (hwf : wfBody b)
    (hsc : removeAssignVariableOpsAndConstOps b = some (b2, hs)) :
    ∀ a ∈ b, isAssignVar a = true → qualifies b a = true →
      ∀ c, def1 b a = some c →
        ((c ∈ b2 ↔ opsUseId b2 c.oid = true) ∧
         ∀ d, def0 b a = some d → d ∈ hs) := by
  intro a ha haV hq c hc
  have F := removeAssign_facts hwf hsc
  have haF : a ∈ b.filter isAssignVar := List.mem_filter.2 ⟨ha, haV⟩
  rcases def1_some_elim hc with ⟨v, hv, hcv⟩
  have hcB : c ∈ b := (definingOp_some hcv).2
  constructor
  · constructor
    · exact fun hcm => F.constKeptUsed a haF hq c hc hcm
    · intro huse
      rcases qualifies_def1 hq with ⟨c', hc', hk'⟩
      have hcc : c = c' := by
        rw [hc] at hc'
        exact Option.some.inj hc'
      exact F.constUsedKept c hcB (hcc ▸ hk') huse
  · intro d hd
    rw [removeAssign_handles hwf hsc]
    exact mem_collected_of haF hq hd

/-- C6 witness: the constant of `bShared` feeds two qualifying assigns;
after the scan both handles are collected and the constant is gone
(having no remaining use). -/
theorem C6_witness :
    removeAssignVariableOpsAndConstOps bShared =
      some ([vhOp 1 "a" 1, vhOp 2 "b" 2, termOp 6],
        [vhOp 1 "a" 1, vhOp 2 "b" 2]) ∧
    (((litConstOp 3 9) ∈ [vhOp 1 "a" 1, vhOp 2 "b" 2, termOp 6] ↔
      opsUseId [vhOp 1 "a" 1, vhOp 2 "b" 2, termOp 6]
        (litConstOp 3 9).oid = true) ∧
     ∀ d, def0 bShared (assignOp 4 (.res 1 0) (.res 3 0)) = some d →
       d ∈ [vhOp 1 "a" 1, vhOp 2 "b" 2]) := by
  refine ⟨rfl, ?_⟩
  exact C6_const_erased_iff_unused bShared
    [vhOp 1 "a" 1, vhOp 2 "b" 2, termOp 6] [vhOp 1 "a" 1, vhOp 2 "b" 2]
    (by unfold wfBody; decide) rfl (assignOp 4 (.res 1 0) (.res 3 0))
    (List.mem_cons_of_mem _ (List.mem_cons_of_mem _
      (List.mem_cons_of_mem _ (List.mem_cons_self _ _))))
    rfl rfl (litConstOp 3 9) rfl

/-! ### Claim C9 -/

/-- C9: the collected sequence has exactly one entry per qualifying
triple, in encounter order of the top-level assigns, without
deduplication of repeated handles, and the tensor-names constant is built
from exactly that sequence of shared names. -/
theorem C9_once_per_triple (m : ModuleOp) (k : Nat) (f : FuncOp)
    (b2 hs : List Operation)
    (hk : findRestoreInit m.funcs = some k) (hf : m.funcs[k]? = some f)
    (hwf : wfBody f.body)
    (hsc : removeAssignVariableOpsAndConstOps f.body = some (b2, hs))
    (hne : hs ≠ []) :
    hs = collected f.body (f.body.filter isAssignVar) ∧
    ∃ m2 f2, runPass m = some m2 ∧ m2.funcs[k]? = some f2 ∧
      create1DStringConst (freshBase m) (hs.map sharedNameOf) ∈ f2.body := by
  refine ⟨removeAssign_handles hwf hsc, ?_⟩
  rcases runPass_mutating_getElem hk hf hsc hne with ⟨m2, hrun, hm2, _⟩
  refine ⟨m2, _, hrun, hm2, ?_⟩
  have hbody : (createRestoreV2Op (freshBase m) hs { f with body := b2 }).body
      = insertBeforeTerm (synthOps (freshBase m) f.args.length hs) b2 := rfl
  rw [hbody]
  exact mem_insertBeforeTerm.2 (Or.inr (List.mem_cons_self _ _))

/-- C9 witness: in `bDup` the same handle is assigned twice, and the
collected sequence lists it twice, yielding a duplicated tensor name. -/
theorem C9_witness :
    removeAssignVariableOpsAndConstOps bDup =
      some ([vhOp 1 "w" 1, termOp 6], [vhOp 1 "w" 1, vhOp 1 "w" 1]) ∧
    [vhOp 1 "w" 1, vhOp 1 "w" 1].map sharedNameOf = ["w", "w"] ∧
    ([vhOp 1 "w" 1, vhOp 1 "w" 1] =
      collected bDup (bDup.filter isAssignVar)) := by
  refine ⟨rfl, rfl, ?_⟩
  exact (C9_once_per_triple ⟨[⟨"init", some "restore_op", [], bDup⟩]⟩ 0
    ⟨"init", some "restore_op", [], bDup⟩ [vhOp 1 "w" 1, termOp 6]
    [vhOp 1 "w" 1, vhOp 1 "w" 1] rfl rfl (by unfold wfBody; decide) rfl
    (by intro h; cases h)).1

/-! ### Claim C3 -/

/-- C3 counterexample: `mCrash3` has a `restore_op` initializer with zero
qualifying patterns, yet the pass does not leave the module unchanged: it
aborts (modelled `none`), because the scan still visits the lone
`AssignVariable` and calls `dyn_cast` on the null defining operation of
its block-argument operand. -/
theorem C3_counterexample :
    collected bCrash3 (bCrash3.filter isAssignVar) = [] ∧
    findRestoreInit mCrash3.funcs = some 0 ∧
    runPass mCrash3 = none := ⟨rfl, rfl, rfl⟩

/-- C3 (amended): a module with no `restore_op` initializer is returned
unchanged; a module whose `restore_op` initializer yields zero collected
patterns and whose scan completes (every scanned operand has a defining
operation) is also returned unchanged. -/
theorem C3_amended (m : ModuleOp)
    (h : findRestoreInit m.funcs = none ∨
      ∃ k f b2, findRestoreInit m.funcs = some k ∧ m.funcs[k]? = some f ∧
        wfBody f.body ∧
        removeAssignVariableOpsAndConstOps f.body = some (b2, [])) :
    runPass m = some m := by
  rcases h with h | ⟨k, f, b2, hk, hf, hwf, hsc⟩
  · exact runPass_no_init h
  · exact runPass_empty_id hk hf hwf hsc

/-- C3 witness: a module without a `restore_op` initializer, and one
whose initializer contains only a nested (never scanned) pattern, are
both returned unchanged. -/
theorem C3_witness :
    runPass mNoInit = some mNoInit ∧ runPass mNest = some mNest := by
  constructor
  · exact C3_amended mNoInit (Or.inl rfl)
  · exact C3_amended mNest (Or.inr ⟨1, ⟨"init", some "restore_op", [], bNest⟩,
      bNest, rfl, rfl, by unfold wfBody; decide, rfl⟩)

/-! ### Claim C8 -/

/-- C8: in a mutating run, the third operand of the new restore operation
resolves (in the transformed body) to a constant holding a rank-1 string
tensor with one entry per collected tensor name, every entry the empty
string. -/
theorem C8_shape_and_slices (m : ModuleOp) (k : Nat) (f : FuncOp)
    (b2 hs : List Operation)
    (hk : findRestoreInit m.funcs = some k) (hf : m.funcs[k]? = some f)
    (hwf : wfBody f.body)
    (hsc : removeAssignVariableOpsAndConstOps f.body = some (b2, hs))
    (hne : hs ≠ []) :
    ∃ m2 f2, runPass m = some m2 ∧ m2.funcs[k]? = some f2 ∧
      theRestoreOp (freshBase m) f.args.length hs ∈ f2.body ∧
      ∃ sc, (theRestoreOp (freshBase m) f.args.length hs).operands[2]? =
          some (Value.res sc.oid 0) ∧
        definingOp f2.body (Value.res sc.oid 0) = some sc ∧
        ∃ vals, sc.kind = OpKind.constant (.strs vals) ∧
          litType (.strs vals) = TType.stringTensor1D vals.length ∧
          vals.length = hs.length ∧
          vals.length = (hs.map sharedNameOf).length ∧
          ∀ s ∈ vals, s = "" := by
  rcases runPass_mutating_getElem hk hf hsc hne with ⟨m2, hrun, hm2, _⟩
  set base := freshBase m with hbase
  set f2 := createRestoreV2Op base hs { f with body := b2 } with hf2
  have hbody : f2.body = insertBeforeTerm (synthOps base f.args.length hs) b2 :=
    rfl
  set sc := create1DStringConst (base + 1)
    (List.replicate (hs.map sharedNameOf).length "") with hsc2
  have hscmem : sc ∈ f2.body := by
    rw [hbody]
    exact mem_insertBeforeTerm.2 (Or.inr
      (List.mem_cons_of_mem _ (List.mem_cons_self _ _)))
  have hrmem : theRestoreOp base f.args.length hs ∈ f2.body := by
    rw [hbody]
    exact mem_insertBeforeTerm.2 (Or.inr (List.mem_cons_of_mem _
      (List.mem_cons_of_mem _ (List.mem_cons_self _ _))))
  have hsub2 : ∀ o ∈ b2, o ∈ f.body := removeAssign_sub hwf hsc
  have hnd2 : (b2.map Operation.oid).Nodup := by
    rcases removeAssign_filter hwf hsc with ⟨p, hp⟩
    exact nodup_oid_sub hwf.1 hp
  have hndf2 : (f2.body.map Operation.oid).Nodup := by
    rw [hbody]
    exact transformed_body_nodup hnd2
      (b2_oid_lt_base (List.getElem?_mem hf) hsub2) hs
  refine ⟨m2, f2, hrun, hm2, hrmem, sc, rfl, ?_, ?_⟩
  · exact definingOp_res_of_mem hndf2 hscmem 0
  · refine ⟨List.replicate (hs.map sharedNameOf).length "", rfl, ?_, ?_, ?_, ?_⟩
    · rw [litType]
    · rw [List.length_replicate, List.length_map]
    · rw [List.length_replicate]
    · exact fun s hss => List.eq_of_mem_replicate hss

/-- C8 witness: on the two-pattern module the shape-and-slices constant
is the two-element empty-string tensor. -/
theorem C8_witness :
    (∃ m2 f2, runPass mW = some m2 ∧ m2.funcs[0]? = some f2 ∧
      theRestoreOp (freshBase mW) fW.args.length
        [vhOp 1 "w1" 1, vhOp 3 "w2" 2] ∈ f2.body ∧
      ∃ sc, (theRestoreOp (freshBase mW) fW.args.length
          [vhOp 1 "w1" 1, vhOp 3 "w2" 2]).operands[2]? =
          some (Value.res sc.oid 0) ∧
        definingOp f2.body (Value.res sc.oid 0) = some sc ∧
        ∃ vals, sc.kind = OpKind.constant (.strs vals) ∧
          litType (.strs vals) = TType.stringTensor1D vals.length ∧
          vals.length = [vhOp 1 "w1" 1, vhOp 3 "w2" 2].length ∧
          vals.length =
            ([vhOp 1 "w1" 1, vhOp 3 "w2" 2].map sharedNameOf).length ∧
          ∀ s ∈ vals, s = "") :=
  C8_shape_and_slices mW 0 fW [vhOp 1 "w1" 1, vhOp 3 "w2" 2, termOp 7]
    [vhOp 1 "w1" 1, vhOp 3 "w2" 2] rfl rfl (by unfold wfBody; decide) rfl
    (by intro h; cases h)

/-! ### Claim C7 -/

/-- C7: in a mutating run all new operations are spliced in immediately
before the terminator, in creation order (tensor-names constant,
shape-and-slices constant, restore, then the new assigns), and the
terminator remains the last operation of the body. -/
theorem C7_before_terminator (m : ModuleOp) (k : Nat) (f : FuncOp)
    (b2 hs : List Operation)
    (hk : findRestoreInit m.funcs = some k) (hf : m.funcs[k]? = some f)
    (hwf : wfBody f.body)
    (hsc : removeAssignVariableOpsAndConstOps f.body = some (b2, hs))
    (hne : hs ≠ []) (hterm : endsWithTerm f.body = true) :
    ∃ m2 f2, runPass m = some m2 ∧ m2.funcs[k]? = some f2 ∧
      ∃ A t, b2 = A ++ [t] ∧ t.kind = OpKind.retOp ∧
        f2.body = A ++ synthOps (freshBase m) f.args.length hs ++ [t] ∧
        f2.body.getLast? = some t ∧ f.body.getLast? = some t := by
  rcases runPass_mutating_getElem hk hf hsc hne with ⟨m2, hrun, hm2, _⟩
  have hlast : ∃ t, f.body.getLast? = some t ∧ t.kind = OpKind.retOp := by
    unfold endsWithTerm at hterm
    cases hl : f.body.getLast? with
    | none =>
      rw [hl] at hterm
      cases hterm
    | some t =>
      rw [hl] at hterm
      exact ⟨t, rfl, of_decide_eq_true hterm⟩
  rcases hlast with ⟨t, hl, htk⟩
  rcases term_survives hwf hsc hl htk with ⟨htmem, A, hA⟩
  refine ⟨m2, _, hrun, hm2, A, t, hA, htk, ?_, ?_, hl⟩
  · show insertBeforeTerm (synthOps (freshBase m) f.args.length hs) b2 =
      A ++ synthOps (freshBase m) f.args.length hs ++ [t]
    rw [hA, insertBeforeTerm_concat]
  · show (insertBeforeTerm (synthOps (freshBase m) f.args.length hs)
      b2).getLast? = some t
    rw [hA, insertBeforeTerm_concat]
    exact List.getLast?_concat _

/-- C7 witness: on the two-pattern module, the new operations sit between
the surviving handles and the terminator. -/
theorem C7_witness :
    ∃ m2 f2, runPass mW = some m2 ∧ m2.funcs[0]? = some f2 ∧
      ∃ A t, [vhOp 1 "w1" 1, vhOp 3 "w2" 2, termOp 7] = A ++ [t] ∧
        t.kind = OpKind.retOp ∧
        f2.body = A ++ synthOps (freshBase mW) fW.args.length
          [vhOp 1 "w1" 1, vhOp 3 "w2" 2] ++ [t] ∧
        f2.body.getLast? = some t ∧ fW.body.getLast? = some t :=
  C7_before_terminator mW 0 fW [vhOp 1 "w1" 1, vhOp 3 "w2" 2, termOp 7]
    [vhOp 1 "w1" 1, vhOp 3 "w2" 2] rfl rfl (by unfold wfBody; decide) rfl
    (by intro h; cases h) rfl

/-! ### Claim C2 -/

/-- C2: for every index `i` below the number of collected handles, the
tensor-names constant has the shared name of handle `i` at position `i`,
the restore operation declares the resource subtype of handle `i` as its
i-th result type, and the i-th new assign writes result `i` of the
restore operation into handle `i`; there are exactly as many new assigns
as results, so nothing is discarded or reordered. -/
theorem C2_index_correspondence (m : ModuleOp) (k : Nat) (f : FuncOp)
    (b2 hs : List Operation) (i : Nat)
    (hk : findRestoreInit m.funcs = some k) (hf : m.funcs[k]? = some f)
    (hwf : wfBody f.body)
    (hsc : removeAssignVariableOpsAndConstOps f.body = some (b2, hs))
    (hne : hs ≠ []) (hi : i < hs.length) :
    ∃ m2 f2, runPass m = some m2 ∧ m2.funcs[k]? = some f2 ∧
      ∃ x, hs[i]? = some x ∧
        (hs.map sharedNameOf)[i]? = some (sharedNameOf x) ∧
        create1DStringConst (freshBase m) (hs.map sharedNameOf) ∈ f2.body ∧
        (hs.map subtypeOf)[i]? = some (subtypeOf x) ∧
        theRestoreOp (freshBase m) f.args.length hs ∈ f2.body ∧
        (theRestoreOp (freshBase m) f.args.length hs).kind =
          OpKind.restoreV2 (hs.map subtypeOf) ∧
        (newAssignOps (freshBase m) hs)[i]? =
          some (Operation.mk (freshBase m + 3 + i) .assignVariable
            [Value.res x.oid 0, Value.res (freshBase m + 2) i] []) ∧
        Operation.mk (freshBase m + 3 + i) .assignVariable
          [Value.res x.oid 0, Value.res (freshBase m + 2) i] [] ∈ f2.body ∧
        (newAssignOps (freshBase m) hs).length = hs.length := by
  rcases runPass_mutating_getElem hk hf hsc hne with ⟨m2, hrun, hm2, _⟩
  set base := freshBase m with hbase
  have hx : hs[i]? = some hs[i] := List.getElem?_eq_getElem hi
  have hbody : (createRestoreV2Op base hs { f with body := b2 }).body =
      insertBeforeTerm (synthOps base f.args.length hs) b2 := rfl
  have hasg := newAssignOps_getElem? base hx
  refine ⟨m2, _, hrun, hm2, hs[i], hx, ?_, ?_, ?_, ?_, rfl, hasg, ?_, ?_⟩
  · rw [List.getElem?_map, hx]
    rfl
  · rw [hbody]
    exact mem_insertBeforeTerm.2 (Or.inr (List.mem_cons_self _ _))
  · rw [List.getElem?_map, hx]
    rfl
  · rw [hbody]
    exact mem_insertBeforeTerm.2 (Or.inr (List.mem_cons_of_mem _
      (List.mem_cons_of_mem _ (List.mem_cons_self _ _))))
  · rw [hbody]
    apply mem_insertBeforeTerm.2
    refine Or.inr (List.mem_cons_of_mem _ (List.mem_cons_of_mem _
      (List.mem_cons_of_mem _ ?_)))
    exact List.getElem?_mem hasg
  · exact newAssignOps_length base hs

/-- C2 witness: index 1 of the two-pattern module: name "w2", subtype 2,
assigned from result 1 of the restore operation. -/
theorem C2_witness :
    ∃ m2 f2, runPass mW = some m2 ∧ m2.funcs[0]? = some f2 ∧
      ∃ x, [vhOp 1 "w1" 1, vhOp 3 "w2" 2][1]? = some x ∧
        ([vhOp 1 "w1" 1, vhOp 3 "w2" 2].map sharedNameOf)[1]? =
          some (sharedNameOf x) ∧
        create1DStringConst (freshBase mW)
          ([vhOp 1 "w1" 1, vhOp 3 "w2" 2].map sharedNameOf) ∈ f2.body ∧
        ([vhOp 1 "w1" 1, vhOp 3 "w2" 2].map subtypeOf)[1]? =
          some (subtypeOf x) ∧
        theRestoreOp (freshBase mW) fW.args.length
          [vhOp 1 "w1" 1, vhOp 3 "w2" 2] ∈ f2.body ∧
        (theRestoreOp (freshBase mW) fW.args.length
          [vhOp 1 "w1" 1, vhOp 3 "w2" 2]).kind =
          OpKind.restoreV2 ([vhOp 1 "w1" 1, vhOp 3 "w2" 2].map subtypeOf) ∧
        (newAssignOps (freshBase mW) [vhOp 1 "w1" 1, vhOp 3 "w2" 2])[1]? =
          some (Operation.mk (freshBase mW + 3 + 1) .assignVariable
            [Value.res x.oid 0, Value.res (freshBase mW + 2) 1] []) ∧
        Operation.mk (freshBase mW + 3 + 1) .assignVariable
          [Value.res x.oid 0, Value.res (freshBase mW + 2) 1] [] ∈ f2.body ∧
        (newAssignOps (freshBase mW) [vhOp 1 "w1" 1, vhOp 3 "w2" 2]).length =
          [vhOp 1 "w1" 1, vhOp 3 "w2" 2].length :=
  C2_index_correspondence mW 0 fW [vhOp 1 "w1" 1, vhOp 3 "w2" 2, termOp 7]
    [vhOp 1 "w1" 1, vhOp 3 "w2" 2] 1 rfl rfl (by unfold wfBody; decide) rfl
    (by intro h; cases h) (by decide)

/-! ### Claim C1 -/

/-- C1 (amended to require that the scan completes): after a mutating
run, the initializer has exactly one additional argument, appended last,
a scalar string tagged `file_prefix`; exactly one new restore operation,
with one result per collected handle; exactly as many new assign
operations as handles; every qualifying original assign is gone; and a
qualifying pattern constant that is still present has a remaining use. -/
theorem C1_transformed_shape (m : ModuleOp) (k : Nat) (f : FuncOp)
    (b2 hs : List Operation)
    (hk : findRestoreInit m.funcs = some k) (hf : m.funcs[k]? = some f)
    (hwf : wfBody f.body)
    (hsc : removeAssignVariableOpsAndConstOps f.body = some (b2, hs))
    (hne : hs ≠ []) :
    ∃ m2 f2, runPass m = some m2 ∧ m2.funcs[k]? = some f2 ∧
      f2.args = f.args ++ [filePfxArg] ∧
      filePfxArg.ty = TType.stringScalar ∧
      filePfxArg.indexPath = some ["file_prefix"] ∧
      countOps isRestore f2.body = countOps isRestore f.body + 1 ∧
      (∀ o ∈ f2.body, isRestore o = true → o ∉ f.body →
        o = theRestoreOp (freshBase m) f.args.length hs ∧
        numResults o = hs.length) ∧
      countOps (fun o => isAssignVar o &&
        !(decide (o.oid ∈ f.body.map Operation.oid))) f2.body = hs.length ∧
      (∀ a ∈ f.body, isAssignVar a = true → qualifies f.body a = true →
        a.oid ∉ f2.body.map Operation.oid) ∧
      (∀ a ∈ f.body, isAssignVar a = true → qualifies f.body a = true →
        ∀ c, def1 f.body a = some c → c.oid ∈ f2.body.map Operation.oid →
          opsUseId b2 c.oid = true) := by
  rcases runPass_mutating_getElem hk hf hsc hne with ⟨m2, hrun, hm2, _⟩
  have F := removeAssign_facts hwf hsc
  have hsub2 : ∀ o ∈ b2, o ∈ f.body := removeAssign_sub hwf hsc
  have hbody : (createRestoreV2Op (freshBase m) hs { f with body := b2 }).body
      = insertBeforeTerm (synthOps (freshBase m) f.args.length hs) b2 := rfl
  have hperm : List.Perm
      (createRestoreV2Op (freshBase m) hs { f with body := b2 }).body
      (b2 ++ synthOps (freshBase m) f.args.length hs) := by
    rw [hbody]
    exact insertBeforeTerm_perm _ _
  have hboundf : ∀ x ∈ f.body.map Operation.oid, x < freshBase m :=
    b2_oid_lt_base (List.getElem?_mem hf) fun o ho => ho
  have hnotrest : ∀ x : Operation, isRestore x = false →
      ¬(isRestore x = true) := by
    intro x hx h
    rw [hx] at h
    cases h
  refine ⟨m2, _, hrun, hm2, rfl, rfl, rfl, ?_, ?_, ?_, ?_, ?_⟩
  · -- restore count
    have hc1 : countOps isRestore
        (createRestoreV2Op (freshBase m) hs { f with body := b2 }).body =
        countOps isRestore (b2 ++ synthOps (freshBase m) f.args.length hs) :=
      (hperm.filter _).length_eq
    have hnil : (newAssignOps (freshBase m) hs).filter isRestore = [] := by
      rw [List.filter_eq_nil_iff]
      intro o ho
      rcases mem_newAssignOps ho with ⟨i, x, hx, rfl⟩
      exact fun h => Bool.false_ne_true h
    have hc2 : countOps isRestore (synthOps (freshBase m) f.args.length hs)
        = 1 := by
      unfold countOps synthOps
      rw [List.filter_cons_of_neg (fun h => Bool.false_ne_true h),
        List.filter_cons_of_neg (fun h => Bool.false_ne_true h),
        List.filter_cons_of_pos rfl, hnil]
      rfl
    have hc3 : countOps isRestore b2 = countOps isRestore f.body :=
      removeAssign_count_preserved hwf hsc fun o ho =>
        ⟨isAssignVar_false_of_isRestore ho, isConstOp_false_of_isRestore ho⟩
    rw [hc1]
    unfold countOps at hc2 hc3 ⊢
    rw [List.filter_append, List.length_append, hc2, hc3]
  · -- the unique new restore
    intro o hof2 hor honf
    rcases (hperm.mem_iff).1 hof2 with hmem
    rcases List.mem_append.1 hmem with hob2 | hosy
    · exact absurd (hsub2 o hob2) honf
    · unfold synthOps at hosy
      rcases List.mem_cons.1 hosy with rfl | h2
      · rw [show isRestore (create1DStringConst (freshBase m)
          (hs.map sharedNameOf)) = false from rfl] at hor
        cases hor
      rcases List.mem_cons.1 h2 with rfl | h3
      · rw [show isRestore (create1DStringConst (freshBase m + 1)
          (List.replicate (hs.map sharedNameOf).length "")) = false
          from rfl] at hor
        cases hor
      rcases List.mem_cons.1 h3 with rfl | h4
      · refine ⟨rfl, ?_⟩
        show (hs.map subtypeOf).length = hs.length
        exact List.length_map hs subtypeOf
      · rcases mem_newAssignOps h4 with ⟨i, x, hx, rfl⟩
        cases hor
  · -- exactly N new assigns
    have hc1 := (hperm.filter (fun o => isAssignVar o &&
      !(decide (o.oid ∈ f.body.map Operation.oid)))).length_eq
    unfold countOps
    rw [hc1, List.filter_append, List.length_append]
    have hb2nil : b2.filter (fun o => isAssignVar o &&
        !(decide (o.oid ∈ f.body.map Operation.oid))) = [] := by
      rw [List.filter_eq_nil_iff]
      intro o ho h
      rcases Bool.and_eq_true_iff.1 h with ⟨_, hnot⟩
      have hdec : decide (o.oid ∈ f.body.map Operation.oid) = false := by
        cases hdm : decide (o.oid ∈ f.body.map Operation.oid)
        · rfl
        · rw [hdm] at hnot
          cases hnot
      exact absurd (List.mem_map_of_mem Operation.oid (hsub2 o ho))
        (of_decide_eq_false hdec)
    have hsynth : (synthOps (freshBase m) f.args.length hs).filter
        (fun o => isAssignVar o &&
          !(decide (o.oid ∈ f.body.map Operation.oid))) =
        newAssignOps (freshBase m) hs := by
      unfold synthOps
      rw [List.filter_cons_of_neg (fun h => Bool.false_ne_true h),
        List.filter_cons_of_neg (fun h => Bool.false_ne_true h),
        List.filter_cons_of_neg (fun h => Bool.false_ne_true h)]
      apply List.filter_eq_self.2
      intro o ho
      rcases mem_newAssignOps ho with ⟨i, x, hx, rfl⟩
      have hnm : ¬((freshBase m + 3 + i) ∈ f.body.map Operation.oid) := by
        intro hin
        have := hboundf _ hin
        omega
      show (isAssignVar _ && !(decide ((freshBase m + 3 + i) ∈
        f.body.map Operation.oid))) = true
      rw [decide_eq_false hnm]
      rfl
    rw [hb2nil, hsynth, newAssignOps_length]
    exact Nat.zero_add _
  · -- qualifying assigns erased
    intro a haB haV hq hmem
    have hmem2 := (hperm.map Operation.oid).mem_iff.1 hmem
    rw [List.map_append] at hmem2
    rcases List.mem_append.1 hmem2 with h | h
    · exact F.qerased a (List.mem_filter.2 ⟨haB, haV⟩) hq h
    · have h1 := synthOps_oid_ge h
      have h2 := hboundf a.oid (List.mem_map_of_mem Operation.oid haB)
      omega
  · -- constants kept only when used
    intro a haB haV hq c hc hmem
    rcases def1_some_elim hc with ⟨v, hv, hcv⟩
    have hcB : c ∈ f.body := (definingOp_some hcv).2
    have hmem2 := (hperm.map Operation.oid).mem_iff.1 hmem
    rw [List.map_append] at hmem2
    rcases List.mem_append.1 hmem2 with h | h
    · rcases List.mem_map.1 h with ⟨o2, ho2, he⟩
      have heq : o2 = c := oid_inj hwf.1 (hsub2 o2 ho2) hcB he
      exact F.constKeptUsed a (List.mem_filter.2 ⟨haB, haV⟩) hq c hc
        (heq ▸ ho2)
    · have h1 := synthOps_oid_ge h
      have h2 := hboundf c.oid (List.mem_map_of_mem Operation.oid hcB)
      omega

/-- C1 counterexample: `mCrash1` has one qualifying pattern, but the pass
aborts on the later assign whose resource is a block argument, so it does
not produce the transformed subroutine the claim promises for every
module with at least one qualifying pattern. -/
theorem C1_counterexample :
    (collected bCrash1 (bCrash1.filter isAssignVar)).length = 1 ∧
    findRestoreInit mCrash1.funcs = some 0 ∧
    runPass mCrash1 = none := ⟨rfl, rfl, rfl⟩

/-- C1 witness: the two-pattern module. -/
theorem C1_witness :
    ∃ m2 f2, runPass mW = some m2 ∧ m2.funcs[0]? = some f2 ∧
      f2.args = fW.args ++ [filePfxArg] ∧
      filePfxArg.ty = TType.stringScalar ∧
      filePfxArg.indexPath = some ["file_prefix"] ∧
      countOps isRestore f2.body = countOps isRestore fW.body + 1 ∧
      (∀ o ∈ f2.body, isRestore o = true → o ∉ fW.body →
        o = theRestoreOp (freshBase mW) fW.args.length
          [vhOp 1 "w1" 1, vhOp 3 "w2" 2] ∧
        numResults o = [vhOp 1 "w1" 1, vhOp 3 "w2" 2].length) ∧
      countOps (fun o => isAssignVar o &&
        !(decide (o.oid ∈ fW.body.map Operation.oid))) f2.body =
        [vhOp 1 "w1" 1, vhOp 3 "w2" 2].length ∧
      (∀ a ∈ fW.body, isAssignVar a = true → qualifies fW.body a = true →
        a.oid ∉ f2.body.map Operation.oid) ∧
      (∀ a ∈ fW.body, isAssignVar a = true → qualifies fW.body a = true →
        ∀ c, def1 fW.body a = some c → c.oid ∈ f2.body.map Operation.oid →
          opsUseId [vhOp 1 "w1" 1, vhOp 3 "w2" 2, termOp 7] c.oid = true) :=
  C1_transformed_shape mW 0 fW [vhOp 1 "w1" 1, vhOp 3 "w2" 2, termOp 7]
    [vhOp 1 "w1" 1, vhOp 3 "w2" 2] rfl rfl (by unfold wfBody; decide) rfl
    (by intro h; cases h)

/-! ### Claim C10 -/

/-- C10: the scan reads only the top-level operations of the initializer:
the collected handles are exactly those of the top-level qualifying
assigns, nothing that is neither a top-level assign nor a constant is
ever erased (in particular any operation carrying a nested region, with
everything inside it, survives verbatim), and all other functions of the
module are left untouched. -/
theorem C10_top_level_only (m : ModuleOp) (k : Nat) (f : FuncOp)
    (b2 hs : List Operation) (m2 : ModuleOp)
    (hk : findRestoreInit m.funcs = some k) (hf : m.funcs[k]? = some f)
    (hwf : wfBody f.body)
    (hsc : removeAssignVariableOpsAndConstOps f.body = some (b2, hs))
    (hrun : runPass m = some m2) :
    (∀ j, j ≠ k → m2.funcs[j]? = m.funcs[j]?) ∧
    hs = collected f.body (f.body.filter isAssignVar) ∧
    (∀ o ∈ f.body, isAssignVar o = false → isConstOp o = false →
      o ∈ b2) ∧
    (∀ o ∈ f.body, o ∉ b2 → isAssignVar o = true ∨ isConstOp o = true) := by
  have F := removeAssign_facts hwf hsc
  have hframe : ∀ g : FuncOp, m2 = ⟨m.funcs.set k g⟩ →
      ∀ j, j ≠ k → m2.funcs[j]? = m.funcs[j]? := by
    intro g hg j hj
    rw [hg]
    exact List.getElem?_set_ne fun he => hj he.symm
  refine ⟨?_, removeAssign_handles hwf hsc, ?_, ?_⟩
  · by_cases hemp : hs = []
    · subst hemp
      rw [runPass_empty hk hf hsc] at hrun
      exact hframe _ (Option.some.inj hrun).symm
    · rw [runPass_mutating hk hf hsc hemp] at hrun
      exact hframe _ (Option.some.inj hrun).symm
  · intro o ho hna hnc
    by_contra hno
    rcases F.onlyAC o ho hno with hl | hc
    · have := List.of_mem_filter hl
      rw [hna] at this
      cases this
    · rw [hnc] at hc
      cases hc
  · intro o ho hno
    rcases F.onlyAC o ho hno with hl | hc
    · exact Or.inl (List.of_mem_filter hl)
    · exact Or.inr hc

/-- C10 witness: the assign pattern nested inside operation 4 of `mNest`
is never collected and nothing is erased; the other function is
untouched. -/
theorem C10_witness :
    (∀ j, j ≠ 1 → mNest.funcs[j]? = mNest.funcs[j]?) ∧
    ([] : List Operation) = collected bNest (bNest.filter isAssignVar) ∧
    (∀ o ∈ bNest, isAssignVar o = false → isConstOp o = false →
      o ∈ bNest) ∧
    (∀ o ∈ bNest, o ∉ bNest → isAssignVar o = true ∨ isConstOp o = true) :=
  C10_top_level_only mNest 1 ⟨"init", some "restore_op", [], bNest⟩ bNest []
    mNest rfl rfl (by unfold wfBody; decide) rfl rfl

/-! ### Claim C5 -/

/-- C5 counterexample: running the pass a second time on its own output
module `mWout` does not produce a second restore operation; the module is
returned unchanged, still with exactly one restore in its initializer. -/
theorem C5_counterexample :
    runPass mW = some mWout ∧ runPass mWout = some mWout ∧
    mWout.funcs.map (fun g => countOps isRestore g.body) = [1] :=
  ⟨rfl, rfl, rfl⟩

/-- C5 (amended): a second run of the pass on the module produced by a
first successful run is the identity; in particular no second restore
operation is created, because the new assigns read their values from
restore results (not constants) and all qualifying patterns were already
removed. -/
theorem C5_idempotent_on_output (m m1 : ModuleOp) (k : Nat) (f : FuncOp)
    (hk : findRestoreInit m.funcs = some k) (hf : m.funcs[k]? = some f)
    (hwf : wfBody f.body) (h1 : runPass m = some m1) :
    runPass m1 = some m1 := by
  have hty : f.initType = some "restore_op" := by
    rcases findRestoreInit_some hk with ⟨f', hf', hty'⟩
    rw [hf] at hf'
    rw [Option.some.inj hf']
    exact hty'
  cases hsc : removeAssignVariableOpsAndConstOps f.body with
  | none =>
    rw [runPass_crash hk hf hsc] at h1
    cases h1
  | some p =>
    rcases p with ⟨b2, hs⟩
    by_cases hemp : hs = []
    · subst hemp
      have hid := runPass_empty_id hk hf hwf hsc
      rw [hid] at h1
      rw [← Option.some.inj h1]
      exact hid
    · rw [runPass_mutating hk hf hsc hemp] at h1
      have hm1 : m1 = ⟨m.funcs.set k
          (createRestoreV2Op (freshBase m) hs { f with body := b2 })⟩ :=
        (Option.some.inj h1).symm
      set base := freshBase m with hbase
      set f2 := createRestoreV2Op base hs { f with body := b2 } with hf2def
      have hklt : k < m.funcs.length := (List.getElem?_eq_some.1 hf).1
      have hty2 : f2.initType = some "restore_op" := hty
      have hk1 : findRestoreInit m1.funcs = some k := by
        rw [hm1]
        exact findRestoreInit_set hk hty2
      have hf1 : m1.funcs[k]? = some f2 := by
        rw [hm1]
        show (m.funcs.set k f2)[k]? = some f2
        rw [List.getElem?_set_self']
        simp [hklt]
      have F := removeAssign_facts hwf hsc
      have hsub2 : ∀ o ∈ b2, o ∈ f.body := removeAssign_sub hwf hsc
      have hnd2 : (b2.map Operation.oid).Nodup := by
        rcases removeAssign_filter hwf hsc with ⟨p, hp⟩
        exact nodup_oid_sub hwf.1 hp
      have hbody : f2.body =
          insertBeforeTerm (synthOps base f.args.length hs) b2 := rfl
      have hndf2 : (f2.body.map Operation.oid).Nodup := by
        rw [hbody]
        exact transformed_body_nodup hnd2
          (b2_oid_lt_base (List.getElem?_mem hf) hsub2) hs
      have hmemf2 : ∀ {o : Operation}, o ∈ f2.body ↔
          o ∈ b2 ∨ o ∈ synthOps base f.args.length hs := by
        intro o
        rw [hbody]
        exact mem_insertBeforeTerm
      have hhandle_mem : ∀ x ∈ hs, x ∈ b2 := by
        intro x hx
        have hxcol : x ∈ collected f.body (f.body.filter isAssignVar) := by
          rw [← removeAssign_handles hwf hsc]
          exact hx
        rcases collected_mem hxcol with ⟨hxv, hxB⟩
        by_contra hxn
        rcases F.onlyAC x hxB hxn with hl | hc
        · have := List.of_mem_filter hl
          rw [isAssignVar_false_of_isVarHandle hxv] at this
          cases this
        · rw [isConstOp_false_of_isVarHandle hxv] at hc
          cases hc
      have hskip : ∀ a ∈ f2.body.filter isAssignVar, ∀ acc,
          stripStep f2.body acc a = some (f2.body, acc) := by
        intro a haf acc
        have haM : a ∈ f2.body := List.mem_of_mem_filter haf
        have haV : isAssignVar a = true := List.of_mem_filter haf
        rcases hmemf2.1 haM with hab2 | hasy
        · have haB : a ∈ f.body := hsub2 a hab2
          have haF : a ∈ f.body.filter isAssignVar :=
            List.mem_filter.2 ⟨haB, haV⟩
          rcases F.shapes a haF with ⟨d, hd0, himp⟩
          rcases def0_some_elim hd0 with ⟨r, hr, hdr⟩
          have hdb2 : d ∈ b2 := def_survives hwf hsc hab2 hr hdr
          have hdf2 : d ∈ f2.body := hmemf2.2 (Or.inl hdb2)
          have hdrf2 : definingOp f2.body r = some d := by
            rcases (definingOp_some hdr).1 with ⟨j, rfl⟩
            exact definingOp_res_of_mem hndf2 hdf2 j
          cases hv : isVarHandle d with
          | false => exact stripStep_skip_vh hr hdrf2 hv
          | true =>
            rcases himp hv with ⟨c, hd1⟩
            have hqa : qualifies f.body a = false := by
              cases hqv : qualifies f.body a
              · rfl
              · have := F.qerased a haF hqv
                exact absurd (List.mem_map_of_mem Operation.oid hab2) this
            have hk2 : isConstOp c = false :=
              not_const_of_qual_false hd0 hv hd1 hqa
            rcases def1_some_elim hd1 with ⟨v1, hv1, hcv1⟩
            have hcb2 : c ∈ b2 := def_survives hwf hsc hab2 hv1 hcv1
            have hcf2 : c ∈ f2.body := hmemf2.2 (Or.inl hcb2)
            have hcvf2 : definingOp f2.body v1 = some c := by
              rcases (definingOp_some hcv1).1 with ⟨j, rfl⟩
              exact definingOp_res_of_mem hndf2 hcf2 j
            exact stripStep_skip_const hr hdrf2 hv hv1 hcvf2 hk2
        · unfold synthOps at hasy
          rcases List.mem_cons.1 hasy with rfl | h2
          · exact (Bool.false_ne_true haV).elim
          rcases List.mem_cons.1 h2 with rfl | h3
          · exact (Bool.false_ne_true haV).elim
          rcases List.mem_cons.1 h3 with rfl | h4
          · exact (Bool.false_ne_true haV).elim
          rcases mem_newAssignOps h4 with ⟨i, x, hx, rfl⟩
          have hxb2 : x ∈ b2 := hhandle_mem x (List.getElem?_mem hx)
          have hxf2 : x ∈ f2.body := hmemf2.2 (Or.inl hxb2)
          have hxv : isVarHandle x = true := by
            have hxcol : x ∈ collected f.body (f.body.filter isAssignVar) := by
              rw [← removeAssign_handles hwf hsc]
              exact List.getElem?_mem hx
            exact (collected_mem hxcol).1
          have hrmem : theRestoreOp base f.args.length hs ∈ f2.body :=
            hmemf2.2 (Or.inr (List.mem_cons_of_mem _
              (List.mem_cons_of_mem _ (List.mem_cons_self _ _))))
          have hdef0 : definingOp f2.body (Value.res x.oid 0) = some x :=
            definingOp_res_of_mem hndf2 hxf2 0
          have hdef1 : definingOp f2.body (Value.res (base + 2) i) =
              some (theRestoreOp base f.args.length hs) :=
            definingOp_res_of_mem hndf2 hrmem i
          exact stripStep_skip_const rfl hdef0 hxv rfl hdef1 rfl
      have hscan2 : removeAssignVariableOpsAndConstOps f2.body =
          some (f2.body, []) :=
        stripGo_all_skip hskip []
      rw [runPass_empty hk1 hf1 hscan2]
      have heta : { f2 with body := f2.body } = f2 := rfl
      rw [heta, hm1]
      show some (⟨(m.funcs.set k f2).set k f2⟩ : ModuleOp) =
        some ⟨m.funcs.set k f2⟩
      rw [List.set_set]

/-- C5 witness: the second run on the output of the two-pattern module is
the identity. -/
theorem C5_witness : runPass mWout = some mWout :=
  C5_idempotent_on_output mW mWout 0 fW rfl rfl
    (by unfold wfBody; decide) rfl
